import Mathlib

/-!
# Verification of the bson-lite document store

Shallow embedding of the repository's source (src/src/db.ts and
src/src/collection.ts) and proofs about it.

JavaScript values are modelled by the inductive type `Value`; JavaScript
objects are ordered association lists with unique keys (insertion order,
assignment to an existing key keeps its position, assignment to a new key
appends).  The absent marker `Value.vundef` plays the role of JS
`undefined`.  Dot-paths are modelled as lists of segments: `dotGetter` and
`dotSetter` in db.ts accept `string | string[]` and a string is first split
on `"."`, so the segment-list form is the code's own normal form.  The
template-string paths built by collection.ts (for example
`` `${this.name}.data.${_id}` ``) are rendered as the corresponding segment
lists `[name, "data", id]`; this is exactly what the split produces whenever
the interpolated strings contain no `"."`, which the universally quantified
theorems assume where it matters.
-/

set_option maxRecDepth 10000

namespace BsonLite

/-- A JavaScript value: `vundef` is `undefined` (the absent-marker),
`vobj` is a plain object as an ordered association list. -/
inductive Value : Type where
  | vundef : Value
  | vnull : Value
  | vbool : Bool → Value
  | vnum : Int → Value
  | vstr : String → Value
  | varr : List Value → Value
  | vobj : List (String × Value) → Value
  deriving Repr, Inhabited

mutual

/-- Boolean equality on `Value` (JS `===` on the fragment we model:
structural equality; two objects/arrays are compared by contents here,
which agrees with `===` on the primitive values this code compares). -/
def beqValue : Value → Value → Bool
  | .vundef, .vundef => true
  | .vnull, .vnull => true
  | .vbool a, .vbool b => a = b
  | .vnum a, .vnum b => a = b
  | .vstr a, .vstr b => a = b
  | .varr xs, .varr ys => beqValueList xs ys
  | .vobj fs, .vobj gs => beqValueFields fs gs
  | _, _ => false

def beqValueList : List Value → List Value → Bool
  | [], [] => true
  | x :: xs, y :: ys => beqValue x y && beqValueList xs ys
  | _, _ => false

def beqValueFields : List (String × Value) → List (String × Value) → Bool
  | [], [] => true
  | (k, v) :: fs, (k', v') :: gs => k = k' && beqValue v v' && beqValueFields fs gs
  | _, _ => false

end

mutual

theorem beqValue_iff : ∀ a b : Value, beqValue a b = true ↔ a = b
  | .vundef, b => by cases b <;> simp [beqValue]
  | .vnull, b => by cases b <;> simp [beqValue]
  | .vbool a, b => by cases b <;> simp [beqValue]
  | .vnum a, b => by cases b <;> simp [beqValue]
  | .vstr a, b => by cases b <;> simp [beqValue]
  | .varr xs, b => by
    cases b <;> simp [beqValue]
    exact beqValueList_iff xs _
  | .vobj fs, b => by
    cases b <;> simp [beqValue]
    exact beqValueFields_iff fs _

theorem beqValueList_iff : ∀ xs ys : List Value, beqValueList xs ys = true ↔ xs = ys
  | [], ys => by cases ys <;> simp [beqValueList]
  | x :: xs, ys => by
    cases ys with
    | nil => simp [beqValueList]
    | cons y ys =>
      simp [beqValueList, Bool.and_eq_true, beqValue_iff x y, beqValueList_iff xs ys]

theorem beqValueFields_iff :
    ∀ fs gs : List (String × Value), beqValueFields fs gs = true ↔ fs = gs
  | [], gs => by cases gs <;> simp [beqValueFields]
  | (k, v) :: fs, gs => by
    cases gs with
    | nil => simp [beqValueFields]
    | cons g gs =>
      obtain ⟨k', v'⟩ := g
      simp [beqValueFields, Bool.and_eq_true, beqValue_iff v v', beqValueFields_iff fs gs,
        and_assoc, Prod.ext_iff]

end

instance : BEq Value := ⟨beqValue⟩

instance : LawfulBEq Value where
  eq_of_beq h := (beqValue_iff _ _).mp h
  rfl := (beqValue_iff _ _).mpr rfl

instance : DecidableEq Value := fun a b =>
  decidable_of_iff (beqValue a b = true) (beqValue_iff a b)

namespace Value

/-- JS property read on a plain object: first binding of the key, else
`undefined`.  (Real JS objects have unique keys.) -/
def objGet : List (String × Value) → String → Value
  | [], _ => .vundef
  | (k', v) :: fs, k => if k' = k then v else objGet fs k

/-- JS property assignment on a plain object: an existing key keeps its
position, a new key is appended.  Assigning `undefined` keeps the key. -/
def objSet : List (String × Value) → String → Value → List (String × Value)
  | [], k, v => [(k, v)]
  | (k', v') :: fs, k, v => if k' = k then (k', v) :: fs else (k', v') :: objSet fs k v

/-- JS truthiness: `undefined`, `null`, `false`, `0` and `""` are falsy. -/
def truthy : Value → Bool
  | .vundef => false
  | .vnull => false
  | .vbool b => b
  | .vnum n => n != 0
  | .vstr s => s ≠ ""
  | .varr _ => true
  | .vobj _ => true

/-- `isObjectNotNull` from db.ts: truthy, of object type, and with the
plain-`Object` constructor (so arrays and `null` are excluded). -/
def isObjectNotNull : Value → Bool
  | .vobj _ => true
  | _ => false

mutual

/-- JS `String(v)` as used by template-string interpolation and property
keys.  Array elements that are `undefined`/`null` render as `""` inside
`Array.prototype.toString`. -/
def jsToString : Value → String
  | .vundef => "undefined"
  | .vnull => "null"
  | .vbool b => if b then "true" else "false"
  | .vnum n => toString n
  | .vstr s => s
  | .varr xs => String.intercalate "," (jsToStringArrElem xs)
  | .vobj _ => "[object Object]"

/-- Stringification of array elements for `Array.prototype.toString`. -/
def jsToStringArrElem : List Value → List String
  | [] => []
  | .vundef :: xs => "" :: jsToStringArrElem xs
  | .vnull :: xs => "" :: jsToStringArrElem xs
  | x :: xs => jsToString x :: jsToStringArrElem xs

end

end Value

open Value

/-- JS property access `v[k]` for the values this code reads fields from;
on non-objects the result is `undefined` (access on `undefined`/`null`
would throw a `TypeError` in JS — the theorems below only apply it where
the source would not throw, or note the divergence explicitly). -/
def jsProp : Value → String → Value
  | .vobj fs, k => Value.objGet fs k
  | _, _ => Value.vundef

/-- `Object.keys` (empty on non-objects; `Object.keys(undefined)` throws in
JS and is never reached on the paths modelled here). -/
def jsKeys : Value → List String
  | .vobj fs => fs.map Prod.fst
  | _ => []

/-- `Object.values`. -/
def jsValues : Value → List Value
  | .vobj fs => fs.map Prod.snd
  | _ => []

/-- `Object.entries`. -/
def jsEntries : Value → List (String × Value)
  | .vobj fs => fs
  | _ => []

/-- The regex test `/\d+/.test(pn)`: the pattern is unanchored, so it holds
iff the segment contains at least one decimal digit. -/
def hasDigit (s : String) : Bool := s.any Char.isDigit

/-- `parseInt(pn)`: skip leading spaces, optional sign, then the longest
leading digit run; `none` models `NaN`. -/
def jsParseInt (s : String) : Option Int :=
  let t := (s.toList).dropWhile (· = ' ')
  match t with
  | '-' :: rest =>
      let ds := rest.takeWhile Char.isDigit
      if ds.isEmpty then none else some (-(String.toNat! (String.mk ds) : Int))
  | '+' :: rest =>
      let ds := rest.takeWhile Char.isDigit
      if ds.isEmpty then none else some (String.toNat! (String.mk ds) : Int)
  | _ =>
      let ds := t.takeWhile Char.isDigit
      if ds.isEmpty then none else some (String.toNat! (String.mk ds) : Int)

/-- Array indexing `data[parseInt(pn)]`: out-of-range, negative and `NaN`
indices read as `undefined`. -/
def arrIndex (xs : List Value) (pn : String) : Value :=
  match jsParseInt pn with
  | some i => if h : 0 ≤ i ∧ i.toNat < xs.length then xs.get ⟨i.toNat, h.2⟩ else .vundef
  | none => Value.vundef

/-- The traversal loop of `dotGetter` (db.ts lines 33–41): at each segment,
index an array when the segment contains a digit, else index a plain
object, else — when more segments remain — continue from a detached empty
object; at the last segment a non-container is left unchanged. -/
def dotGetterRaw : Value → List String → Value
  | data, [] => data
  | data, pn :: rest =>
    match data with
    | .varr xs =>
      if hasDigit pn then dotGetterRaw (arrIndex xs pn) rest
      else if rest.isEmpty then .varr xs else dotGetterRaw (.vobj []) rest
    | .vobj fs => dotGetterRaw (Value.objGet fs pn) rest
    | d => if rest.isEmpty then d else dotGetterRaw (.vobj []) rest

/-- The final normalization of `dotGetter` (db.ts lines 43–45): a plain
object with zero keys becomes the absent-marker. -/
def normEmptyObj : Value → Value
  | .vobj [] => .vundef
  | r => r

/-- `dotGetter` (db.ts lines 28–48): traverse, then normalize a final empty
plain object to the absent-marker. -/
def dotGetter (data : Value) (p : List String) : Value :=
  normEmptyObj (dotGetterRaw data p)

/-- The mutating part of `dotSetter` (db.ts lines 50–68), rendered
functionally: `none` means the write landed on a detached or non-object
node and the tree is unchanged.  The `[]` path writes the key
`"undefined"` (`p[p.length - 1]` is `undefined` in JS); it is never used
by the collection code. -/
def dotSetAux : Value → List String → Value → Option Value
  | data, [], v =>
    match data with
    | .vobj fs => some (.vobj (Value.objSet fs "undefined" v))
    | _ => none
  | data, [k], v =>
    match data with
    | .vobj fs => some (.vobj (Value.objSet fs k v))
    | _ => none
  | data, k :: rest, v =>
    match data with
    | .varr xs =>
      if hasDigit k then
        match jsParseInt k with
        | some i =>
          if h : 0 ≤ i ∧ i.toNat < xs.length then
            (dotSetAux (xs.get ⟨i.toNat, h.2⟩) rest v).map (fun c => .varr (xs.set i.toNat c))
          else none
        | none => none
      else none
    | .vobj fs => (dotSetAux (Value.objGet fs k) rest v).map (fun c => .vobj (Value.objSet fs k c))
    | _ => none

/-- `dotSetter` (db.ts lines 50–68): assign through the path; a silent
no-op when traversal leaves the real tree. -/
def dotSetter (data : Value) (p : List String) (v : Value) : Value :=
  (dotSetAux data p v).getD data

/-- `Db.get` with a default.  Modelled from the spec: the variant of
`Db.get` taking a default value is not in src/src/db.ts (its `get(p)` has
no second parameter), but collection.ts calls `db.get` with defaults
(`this.db.get(\x7b...\x7d.data, \x7b\x7d)`, `this.db.get(..., [])`) and the spec §4.1
specifies "If the final result is the absent-marker and a default was
supplied, return the default instead". -/
def dbGetD (data : Value) (p : List String) (dflt : Value) : Value :=
  match dotGetter data p with
  | .vundef => dflt
  | r => r

example : dotGetter (.vobj [("a", .vobj [("b", .vnum 3)])]) ["a", "b"] = .vnum 3 := by decide

example : dotGetter (.vobj [("a", .vobj [])]) ["a"] = .vundef := by decide

example : dotSetter (.vobj []) ["a", "b"] (.vnum 1) = .vobj [] := by decide

example :
    dotSetter (.vobj [("a", .vobj [])]) ["a", "b"] (.vnum 1) =
      .vobj [("a", .vobj [("b", .vnum 1)])] := by decide

/-! ## Tree-store lemmas and claims C2, C4 -/

theorem objGet_objSet_self (fs : List (String × Value)) (k : String) (v : Value) :
    Value.objGet (Value.objSet fs k v) k = v := by
  induction fs with
  | nil => simp [Value.objGet, Value.objSet]
  | cons f fs ih =>
    obtain ⟨k', v'⟩ := f
    by_cases h : k' = k <;> simp [Value.objGet, Value.objSet, h, ih]

/-- Paths that do not cross a non-mapping boundary: nonempty, and every
node from the root down to the parent of the final segment is a plain
mapping. -/
def ObjPath : Value → List String → Prop
  | _, [] => False
  | t, [_] => ∃ fs, t = Value.vobj fs
  | t, k :: rest => ∃ fs, t = Value.vobj fs ∧ ObjPath (Value.objGet fs k) rest

theorem normEmptyObj_of_ne (v : Value) (h : v ≠ .vobj []) : normEmptyObj v = v := by
  cases v with
  | vobj fs => cases fs with
    | nil => exact absurd rfl h
    | cons f fs => rfl
  | _ => rfl

theorem dotSetAux_isSome_of_objPath (p : List String) :
    ∀ (t : Value), ObjPath t p → ∀ v : Value, (dotSetAux t p v).isSome := by
  induction p with
  | nil => intro t h; exact absurd h id
  | cons k rest ih =>
    intro t h v
    cases rest with
    | nil =>
      obtain ⟨fs, rfl⟩ := h
      simp [dotSetAux]
    | cons k2 rest2 =>
      obtain ⟨fs, rfl, hrest⟩ := h
      obtain ⟨c, hc⟩ := Option.isSome_iff_exists.mp (ih (Value.objGet fs k) hrest v)
      simp [dotSetAux, hc]

/-- C4 amended: writing a value that is not the empty mapping at a path
whose intermediate nodes are plain mappings, then reading the same path,
returns the value written.  (For `v = \x7b\x7d` the read applies the
empty-mapping normalization of §4.1 and yields the absent-marker instead,
see `get_set_empty_obj_counterexample`.) -/
theorem get_after_set_on_mapping_path (p : List String) :
    ∀ (t v : Value), ObjPath t p → v ≠ .vobj [] →
      dotGetter (dotSetter t p v) p = v := by
  induction p with
  | nil => intro t v h _; exact absurd h id
  | cons k rest ih =>
    intro t v h hv
    cases rest with
    | nil =>
      obtain ⟨fs, rfl⟩ := h
      simp only [dotSetter, dotSetAux, Option.getD_some, dotGetter, dotGetterRaw,
        objGet_objSet_self]
      exact normEmptyObj_of_ne v hv
    | cons k2 rest2 =>
      obtain ⟨fs, rfl, hrest⟩ := h
      obtain ⟨c, hc⟩ := Option.isSome_iff_exists.mp
        (dotSetAux_isSome_of_objPath (k2 :: rest2) (Value.objGet fs k) hrest v)
      have hset : dotSetter (Value.vobj fs) (k :: k2 :: rest2) v =
          .vobj (Value.objSet fs k c) := by
        simp [dotSetter, dotSetAux, hc]
      rw [hset]
      have hrec : dotGetter (.vobj (Value.objSet fs k c)) (k :: k2 :: rest2) =
          dotGetter c (k2 :: rest2) := by
        simp [dotGetter, dotGetterRaw, objGet_objSet_self]
      rw [hrec]
      have := ih (Value.objGet fs k) v hrest hv
      rwa [dotSetter, hc, Option.getD_some] at this

/-- Witness for `get_after_set_on_mapping_path` at a concrete input. -/
theorem get_after_set_on_mapping_path_witness :
    dotGetter (dotSetter (.vobj [("a", .vobj [("b", .vnum 1)])]) ["a", "b"] (.vnum 7))
        ["a", "b"] = .vnum 7 :=
  get_after_set_on_mapping_path ["a", "b"] (.vobj [("a", .vobj [("b", .vnum 1)])])
    (.vnum 7) ⟨_, rfl, _, rfl⟩ (by decide)

/-- C4 counterexample: the round-trip law fails for the empty-mapping
value.  The path `["a"]` does not cross a non-mapping boundary, yet
`get(set(root, p, \x7b\x7d), p)` is the absent-marker, not `\x7b\x7d`. -/
theorem get_set_empty_obj_counterexample :
    ObjPath (.vobj []) ["a"] ∧
      dotGetter (dotSetter (.vobj []) ["a"] (.vobj [])) ["a"] ≠ .vobj [] :=
  ⟨⟨[], rfl⟩, by decide⟩

/-- C2: whenever dot-path traversal (including the empty-mapping
normalization) yields the absent-marker, `get` with a supplied default
returns the default. -/
theorem get_default_on_absent (root : Value) (p : List String) (dflt : Value)
    (h : dotGetter root p = .vundef) : dbGetD root p dflt = dflt := by
  simp [dbGetD, h]

/-- Witness for `get_default_on_absent`: the stored value is an empty
mapping, the traversal normalizes it to the absent-marker, and the default
is returned. -/
theorem get_default_on_absent_witness :
    dotGetter (.vobj [("a", .vobj [])]) ["a"] = .vundef ∧
      dbGetD (.vobj [("a", .vobj [])]) ["a"] (.vstr "fallback") = .vstr "fallback" :=
  ⟨rfl, get_default_on_absent (.vobj [("a", .vobj [])]) ["a"] (.vstr "fallback") rfl⟩

/-! ## Collection engine (src/src/collection.ts)

A collection is addressed by its name `n` inside the Db tree `t`.  Methods
become functions from the tree to the tree plus results and emitted
events.  `uuid4()` is modelled by explicit fresh-name arguments (`fresh` /
a `supply` function); theorems add freshness hypotheses where the code
relies on global uniqueness of generated ids.  In `update` and `delete`
the source passes `this.isDuplicate` / `this.addDuplicate` /
`this.removeDuplicate` as bare (unbound) callbacks to `some`/`forEach`;
class bodies are strict-mode, so `this` is `undefined` inside them and
the first invocation throws a `TypeError`.  Both throws happen before any
write, so `update` and `delete` are embedded as `Option`-valued: `none`
is the throw (tree untouched), `some` the completed call — which only
happens when the filter matches nothing. -/

/-- The events a collection emits, in emission order, with the payloads of
the source's `emit` calls (an `update` emit carries the transform
function as well, which is not representable as data and is omitted). -/
inductive Event : Type where
  | preCreate (entry : Value)
  | create (entry : Value)
  | preRead (cond : Value)
  | read (cond : Value) (data : List Value)
  | preUpdate (cond : Value)
  | update (cond : Value) (changes : List Value)
  | preDelete (cond : Value)
  | delete (cond : Value) (changes : List Value)
  deriving DecidableEq

/-- The `__meta` getter: `this.db.get(`(collection name).__meta`)`. -/
def metaOf (t : Value) (n : String) : Value := dotGetter t [n, "__meta"]

/-- `this.__meta.unique`. -/
def uniqueMeta (t : Value) (n : String) : Value := jsProp (metaOf t n) "unique"

/-- `this.__meta.indexes`. -/
def indexesMeta (t : Value) (n : String) : Value := jsProp (metaOf t n) "indexes"

/-- `Collection.isDuplicate` (collection.ts lines 165–173): some declared
unique field's registration map has a truthy entry at the stringified
field value of `entry`. -/
def isDuplicate (t : Value) (n : String) (entry : Value) : Bool :=
  (jsEntries (uniqueMeta t n)).any fun uv =>
    truthy (jsProp uv.2 (jsToString (jsProp entry uv.1)))

/-- `Collection.addDuplicate` (lines 175–179): register `true` under each
declared unique field's stringified value. -/
def addDuplicate (t : Value) (n : String) (entry : Value) : Value :=
  (jsKeys (uniqueMeta t n)).foldl
    (fun t' u =>
      dotSetter t' [n, "__meta", "unique", u, jsToString (jsProp entry u)] (.vbool true))
    t

/-- `Collection.removeDuplicate` (lines 181–185): overwrite each
registration with `undefined`. -/
def removeDuplicate (t : Value) (n : String) (entry : Value) : Value :=
  (jsKeys (uniqueMeta t n)).foldl
    (fun t' u =>
      dotSetter t' [n, "__meta", "unique", u, jsToString (jsProp entry u)] .vundef)
    t

/-- `Collection.getIndex` (lines 187–189): the id bucket for field `k` and
value `v`, with default `[]`. -/
def getIndex (t : Value) (n : String) (k : String) (v : Value) : Value :=
  dbGetD t [n, "__meta", "indexes", k, jsToString v] (.varr [])

/-- The bucket as a list (its TS type is `string[]`). -/
def asArr : Value → List Value
  | .varr xs => xs
  | _ => []

/-- `Collection.addIndex` (lines 191–202): for every field of `entry`
declared as an index, append the id to the field-value bucket unless it is
already present. -/
def addIndex (t : Value) (n : String) (entry : Value) (idV : Value) : Value :=
  let idxKeys := jsKeys (indexesMeta t n)
  (jsEntries entry).foldl
    (fun t' kv =>
      if kv.1 ∈ idxKeys then
        if idV ∈ asArr (getIndex t' n kv.1 kv.2) then t'
        else
          dotSetter t' [n, "__meta", "indexes", kv.1, jsToString kv.2]
            (.varr (asArr (getIndex t' n kv.1 kv.2) ++ [idV]))
      else t')
    t

/-- `ids.splice(ids.indexOf(_id), 1)` in `removeIndex`: remove the first
occurrence when present; when `indexOf` is `-1`, `splice(-1, 1)` removes
the LAST element of a nonempty array. -/
def jsSpliceRemove (ids : List Value) (x : Value) : List Value :=
  if x ∈ ids then ids.erase x else ids.dropLast

/-- `Collection.removeIndex` (lines 204–213): for every field of the
document declared as an index, splice the id out of the field-value
bucket (by value, via `indexOf`). -/
def removeIndex (t : Value) (n : String) (c : Value) (idV : Value) : Value :=
  let idxKeys := jsKeys (indexesMeta t n)
  (jsEntries c).foldl
    (fun t' kv =>
      if kv.1 ∈ idxKeys then
        let ids := asArr (getIndex t' n kv.1 kv.2)
        dotSetter t' [n, "__meta", "indexes", kv.1, jsToString kv.2]
          (.varr (jsSpliceRemove ids idV))
      else t')
    t

/-- `{_id, ...entry}` and `Object.assign`-style key-by-key copying: each
field of `more` is assigned into `base` in order (existing keys keep their
position, new keys append). -/
def spreadInto (base : List (String × Value)) (more : List (String × Value)) :
    List (String × Value) :=
  more.foldl (fun acc kv => Value.objSet acc kv.1 kv.2) base

/-- `Collection.create` (lines 61–84).  Returns the id value (`null`
becomes `none`), the new tree, and the emitted events.  `fresh` models the
`uuid4()` call used when `entry._id` is falsy. -/
def create (t : Value) (n : String) (entry : Value) (fresh : String) :
    Option Value × Value × List Event :=
  if isDuplicate t n entry then (none, t, [.preCreate entry])
  else
    let t1 := addDuplicate t n entry
    let idV := if truthy (jsProp entry "_id") then jsProp entry "_id" else .vstr fresh
    let doc := Value.vobj (spreadInto [("_id", idV)] (jsEntries entry))
    let t2 := dotSetter t1 [n, "data", jsToString idV] doc
    let t3 := addIndex t2 n entry idV
    (some idV, t3, [.preCreate entry, .create entry])

/-- `Collection.getByIndex(_id)` without an index name (line 124): a
one-element array holding the direct document lookup (possibly the
absent-marker). -/
def getById (t : Value) (n : String) (v : Value) : List Value :=
  [dotGetter t [n, "data", jsToString v]]

/-- `Collection.getByIndex(v, indexName)` with a declared index name
(line 121): map each bucket id through the direct lookup.  (With an
undeclared name the source throws; `find` only calls this for declared
names.) -/
def getByIdx (t : Value) (n : String) (k : String) (v : Value) : List Value :=
  (asArr (getIndex t n k v)).map fun el => (getById t n el).headD Value.vundef

/-- The iteratee semantics of lodash `_filter(values, cond)` with an
object condition: partial comparison — `undefined`/`null` match only the
empty condition, otherwise every condition field must equal the
document's field.  (Non-object conditions are not used by the fallback.) -/
def lodashMatches (cond el : Value) : Bool :=
  match cond with
  | .vobj cs =>
    match el with
    | .vundef => cs.isEmpty
    | .vnull => cs.isEmpty
    | _ => cs.all fun kv => beqValue (jsProp el kv.1) kv.2
  | _ => false

/-- `_filter` from lodash as called on line 102. -/
def lodashFilter (xs : List Value) (cond : Value) : List Value :=
  xs.filter (lodashMatches cond)

/-- `Collection.find` (lines 86–108).  `data` starts as the empty array
(`let data: T[] | null = [];`); the single-field `_id`/indexed fast paths
reassign it; the `if (!data)` fallback that scans with `_filter` runs only
when `data` is null-ish, modelled by the `none` branch. -/
def find (t : Value) (n : String) (cond : Value) : List Value × List Event :=
  let data0 : Option (List Value) := some []
  let dataF : Option (List Value) :=
    if isObjectNotNull cond ∧ (jsKeys cond).length = 1 then
      let k := (jsKeys cond).headD ""
      let d1 := if k = "_id" then some (getById t n (jsProp cond k)) else data0
      if k ∈ jsKeys (indexesMeta t n) then some (getByIdx t n k (jsProp cond k)) else d1
    else data0
  let data :=
    match dataF with
    | some d => d
    | none => lodashFilter (jsValues (dbGetD t [n, "data"] (.vobj []))) cond
  (data, [.preRead cond, .read cond data])

/-- `Collection.get` (lines 110–112): `this.find(cond)[0] || null`. -/
def getOne (t : Value) (n : String) (cond : Value) : Value :=
  let x := ((find t n cond).1).headD .vundef
  if truthy x then x else .vnull

/-- `Collection.update` (lines 127–147).  The source hands the bare method
`this.isDuplicate` to `Array.prototype.some` (line 135); class bodies are
strict-mode, so inside the callback `this` is `undefined` and its first
statement (`this.__meta`) throws a `TypeError` as soon as `some` invokes
it — on every nonempty `changes`.  The throw is `none`: it happens before
any write, so the tree is untouched (events emitted before the throw are
not retained).  With no match, `some` returns `false` without invoking the
callback, the equally unbound `forEach` callbacks (lines 138–139) run zero
times, the write loop writes nothing, and the call returns `true`. -/
def update (t : Value) (n : String) (cond : Value) (transform : Value → Value) :
    Option (Bool × Value × List Event) :=
  let fr := find t n cond
  let changes := fr.1.map transform
  let evs := Event.preUpdate cond :: fr.2
  match changes with
  | [] => some (true, t, evs ++ [.update cond changes])
  | _ :: _ => none

/-- `Collection.delete` (lines 149–163).  The source hands the bare method
`this.removeDuplicate` to `forEach` (line 155); in the strict-mode class
`this` is `undefined` inside it, so the first invocation throws a
`TypeError` — before the tombstoning/`removeIndex` loop runs.  A filter
matching at least one document therefore throws with the tree untouched
(`none`; the `async` wrapper makes it a rejected promise), and a filter
matching nothing completes without mutating anything. -/
def deleteOp (t : Value) (n : String) (cond : Value) : Option (Value × List Event) :=
  let fr := find t n cond
  match fr.1 with
  | [] => some (t, Event.preDelete cond :: fr.2 ++ [.delete cond []])
  | _ :: _ => none

/-- The constructor (lines 23–55): if the named subtree is falsy (absent,
or an existing empty mapping — the §4.1 normalization), initialize it with
the metadata shape; the per-field registration maps are built by repeated
assignment (`output[u] = \x7b\x7d`). -/
def buildCollection (t : Value) (n : String) (uniqueFields indexFields : List String) :
    Value :=
  if truthy (dotGetter t [n]) then t
  else
    dotSetter t [n]
      (.vobj
        [("__meta",
          .vobj
            [("unique",
              .vobj (uniqueFields.foldl (fun acc u => Value.objSet acc u (.vobj [])) [])),
             ("indexes",
              .vobj (indexFields.foldl (fun acc i => Value.objSet acc i (.vobj [])) []))]),
         ("data", .vobj [])])

/-! ## Join operator (collection.ts lines 216–264)

The `joinMap` is a JS object keyed by the bucket key.  The embedding keeps
pure insertion order for `Object.values`; JS would enumerate integer-like
keys first in ascending numeric order, a reordering that the
(order-insensitive) properties settled here never observe, and the
concrete inputs below use only non-numeric keys. -/

/-- One side of a join: `IJoiner` — a document array, the join-key field
name, and the include-unmatched flag. -/
structure Joiner : Type where
  col : List Value
  key : String
  null : Bool

/-- A `joinMap` bucket: the `left` and `right` properties (absent
modelled as `none`). -/
abbrev JBucket := Option Value × Option Value

/-- `joinMap[key] = joinMap[key] || \x7b\x7d; joinMap[key].left = l` (and the
symmetric `right` assignment): update the bucket in place, or append a
fresh bucket with that side set. -/
def jmSet : List (String × JBucket) → String → Bool → Value → List (String × JBucket)
  | [], k, isLeft, r => [(k, if isLeft then (some r, none) else (none, some r))]
  | (k', b) :: m, k, isLeft, r =>
    if k' = k then (k', if isLeft then (some r, b.2) else (b.1, some r)) :: m
    else (k', b) :: jmSet m k isLeft r

/-- One side's bucket-filling loop (lines 231–241 / 243–253).  Per row:
the bucket key is the stringified key-field value when truthy; a fresh
placeholder (`uuid4()`, modelled by `supply ctr`) when the side's `null`
flag is set; otherwise `let key: any;` is left `undefined` and the
subsequent `joinMap[key]` property access coerces it to the string
`"undefined"`. -/
def buildSideGo (key : String) (flag : Bool) (isLeft : Bool) (supply : Nat → String) :
    List Value → List (String × JBucket) → Nat → List (String × JBucket) × Nat
  | [], m, ctr => (m, ctr)
  | r :: rows, m, ctr =>
    if truthy (jsProp r key) then
      buildSideGo key flag isLeft supply rows
        (jmSet m (jsToString (jsProp r key)) isLeft r) ctr
    else if flag then
      buildSideGo key flag isLeft supply rows (jmSet m (supply ctr) isLeft r) (ctr + 1)
    else
      buildSideGo key flag isLeft supply rows (jmSet m "undefined" isLeft r) ctr

/-- One side's bucket-filling loop, on a `Joiner`. -/
def buildSide (m : List (String × JBucket)) (ctr : Nat) (side : Joiner) (isLeft : Bool)
    (supply : Nat → String) : List (String × JBucket) × Nat :=
  buildSideGo side.key side.null isLeft supply side.col m ctr

/-- `el.left || \x7b\x7d` / `el.right || \x7b\x7d`. -/
def jsOrEmptyObj : Option Value → Value
  | some v => if truthy v then v else .vobj []
  | none => .vobj []

/-- JS truthiness of `el.left` / `el.right` (a missing property reads as
`undefined`, which is falsy). -/
def optTruthy : Option Value → Bool
  | some v => truthy v
  | none => false

/-- `Object.assign(target, source)`: copy the source's own fields into the
target in order. -/
def jsAssign (target source : Value) : Value :=
  match target with
  | .vobj tf => .vobj (spreadInto tf (jsEntries source))
  | v => v

/-- The output row built from one bucket (lines 257–263). -/
def mergeBucket (mapFn : Option (Value → Value → Value)) (b : JBucket) : Value :=
  match mapFn with
  | some f => f (b.1.getD .vundef) (b.2.getD .vundef)
  | none => jsAssign (jsOrEmptyObj b.2) (jsOrEmptyObj b.1)

/-- The fully filled `joinMap`: left side first (placeholder counter
starting at 0), then the right side. -/
def joinMapOf (left right : Joiner) (supply : Nat → String) :
    List (String × JBucket) :=
  let m1 := buildSide [] 0 left true supply
  (buildSide m1.1 m1.2 right false supply).1

/-- `joinCollection` (lines 222–264): fill the buckets from the left then
the right side, keep buckets with a truthy side, and merge each into one
output row.  `supply` models the `uuid4()` placeholder generator. -/
def joinCollection (left right : Joiner) (mapFn : Option (Value → Value → Value))
    (supply : Nat → String) : List Value :=
  ((joinMapOf left right supply).filter fun kb =>
      optTruthy kb.2.1 || optTruthy kb.2.2).map fun kb =>
    mergeBucket mapFn kb.2

/-- Association-list lookup in a `joinMap`. -/
def jmLookup : List (String × JBucket) → String → Option JBucket
  | [], _ => none
  | (k', b) :: m, k => if k' = k then some b else jmLookup m k

/-- The `left` row stored in the bucket keyed `s` (if any). -/
def leftAt (m : List (String × JBucket)) (s : String) : Option Value :=
  (jmLookup m s).bind Prod.fst

/-- The `right` row stored in the bucket keyed `s` (if any). -/
def rightAt (m : List (String × JBucket)) (s : String) : Option Value :=
  (jmLookup m s).bind Prod.snd

/-- The last row in the list whose key field is truthy and stringifies to
`s`. -/
def lastRowWithKey : List Value → String → String → Option Value
  | [], _, _ => none
  | r :: rows, key, s =>
    match lastRowWithKey rows key s with
    | some r' => some r'
    | none =>
      if truthy (jsProp r key) && (jsToString (jsProp r key) == s) then some r else none

/-! ## Claims C1, C3, C8, C9 -/

/-- A one-document collection without declared indexes: the document
`\x7b_id: "d1", a: 1\x7d` is live. -/
def c1Tree : Value :=
  (create (buildCollection (.vobj []) "c" [] []) "c"
    (.vobj [("_id", .vstr "d1"), ("a", .vnum 1)]) "u1").2.1

/-- C1: the fallback scan of `find` is dead code.  `data` is initialized
to the empty array (`let data: T[] | null = [];`, line 88), which is
truthy, so the `if (!data)` scan (lines 101–103) can never run: for a
condition that is not a single-field `_id`/indexed lookup, `find` returns
the empty array even though a stored document matches the condition and
the `_filter` scan of the data table would return it. -/
theorem find_fallback_scan_unreachable :
    (find c1Tree "c" (.vobj [("a", .vnum 1)])).1 = [] ∧
      lodashFilter (jsValues (dbGetD c1Tree ["c", "data"] (.vobj []))) (.vobj [("a", .vnum 1)]) =
        [.vobj [("_id", .vstr "d1"), ("a", .vnum 1)]] := by decide

/-- A collection with unique field `u` holding the single live document
`\x7b_id: "d1", u: "a", x: 1\x7d` (so `unique.u.a` is registered). -/
def c3Tree : Value :=
  (create (buildCollection (.vobj []) "c" ["u"] []) "c"
    (.vobj [("_id", .vstr "d1"), ("u", .vstr "a"), ("x", .vnum 1)]) "f1").2.1

/-- A transform changing only the non-unique field `x`. -/
def c3Transform : Value → Value
  | .vobj fs => .vobj (Value.objSet fs "x" (.vnum 2))
  | v => v

/-- C3: an `update` whose transform changes only a non-unique field (the
declared unique field `u` keeps its value `"a"`, and `_id` is preserved)
does not succeed and performs no mutation: the filter matches the document,
so `changes.some(this.isDuplicate)` (line 135) invokes the unbound callback
and the strict-mode `this` access throws a `TypeError` (`none`) before
anything is written; the document is untouched.  (Under a `this`-bound
reading the call fails too: the duplicate check runs before the original
registrations are removed, so the document's own `unique.u.a` entry makes
the unchanged value look like a duplicate and the call returns `false`.) -/
theorem update_unchanged_unique_field_fails :
    c3Transform (.vobj [("_id", .vstr "d1"), ("u", .vstr "a"), ("x", .vnum 1)]) =
        .vobj [("_id", .vstr "d1"), ("u", .vstr "a"), ("x", .vnum 2)] ∧
      update c3Tree "c" (.vobj [("_id", .vstr "d1")]) c3Transform = none ∧
      dotGetter c3Tree ["c", "data", "d1"] =
        .vobj [("_id", .vstr "d1"), ("u", .vstr "a"), ("x", .vnum 1)] := by decide

/-- C8: when some declared unique field of the entry has a truthy
registration at the entry's stringified value, `create` returns the
duplicate sentinel (`null`), leaves the whole tree (document table,
unique map, indexes) unchanged, and emits only the pre-create
notification. -/
theorem create_duplicate_rejected_no_mutation (t : Value) (n : String) (entry : Value)
    (fresh : String)
    (h : ∃ u vu, (u, vu) ∈ jsEntries (uniqueMeta t n) ∧
      truthy (jsProp vu (jsToString (jsProp entry u)))) :
    create t n entry fresh = (none, t, [.preCreate entry]) := by
  have hd : isDuplicate t n entry = true := by
    obtain ⟨u, vu, hm, ht⟩ := h
    simp only [isDuplicate, List.any_eq_true]
    exact ⟨(u, vu), hm, ht⟩
  simp [create, hd]

/-- Witness for `create_duplicate_rejected_no_mutation`: the collection
`c3Tree` has `unique.u.a` registered; creating another entry with
`u: "a"` is rejected without mutation. -/
theorem create_duplicate_rejected_no_mutation_witness :
    create c3Tree "c" (.vobj [("u", .vstr "a"), ("b", .vnum 2)]) "f2" =
      (none, c3Tree, [.preCreate (.vobj [("u", .vstr "a"), ("b", .vnum 2)])]) :=
  create_duplicate_rejected_no_mutation c3Tree "c" (.vobj [("u", .vstr "a"), ("b", .vnum 2)])
    "f2" ⟨"u", .vobj [("a", .vbool true)], by decide, by decide⟩

/-- C9: a row whose join-key field is falsy, on a side whose
include-unmatched flag is unset, is NOT dropped: `key` is left
`undefined`, `joinMap[key]` coerces it to the bucket key `"undefined"`,
and falsy-key rows from both sides meet in that bucket — here the lone
falsy-key left row and the lone falsy-key right row are merged into one
output row instead of both being dropped. -/
theorem join_falsy_key_rows_not_dropped :
    joinCollection ⟨[.vobj [("k", .vnum 0), ("a", .vnum 1)]], "k", false⟩
        ⟨[.vobj [("k", .vnum 0), ("b", .vnum 2)]], "k", false⟩ none
        (fun i => "ph" ++ toString i) =
      [.vobj [("k", .vnum 0), ("b", .vnum 2), ("a", .vnum 1)]] := by decide

/-! ## Claim C10: join buckets keep only the last row per key -/

theorem jmLookup_jmSet_left_self (m : List (String × JBucket)) (k : String) (r : Value) :
    jmLookup (jmSet m k true r) k = some (some r, (jmLookup m k).bind Prod.snd) := by
  induction m with
  | nil => simp [jmSet, jmLookup]
  | cons e m ih =>
    obtain ⟨k', b⟩ := e
    by_cases h : k' = k <;> simp [jmSet, jmLookup, h, ih]

theorem jmLookup_jmSet_right_self (m : List (String × JBucket)) (k : String) (r : Value) :
    jmLookup (jmSet m k false r) k = some ((jmLookup m k).bind Prod.fst, some r) := by
  induction m with
  | nil => simp [jmSet, jmLookup]
  | cons e m ih =>
    obtain ⟨k', b⟩ := e
    by_cases h : k' = k <;> simp [jmSet, jmLookup, h, ih]

theorem jmLookup_jmSet_ne (m : List (String × JBucket)) (k s : String) (isLeft : Bool)
    (r : Value) (h : s ≠ k) : jmLookup (jmSet m k isLeft r) s = jmLookup m s := by
  induction m with
  | nil => simp [jmSet, jmLookup, Ne.symm h]
  | cons e m ih =>
    obtain ⟨k', b⟩ := e
    by_cases h1 : k' = k <;> by_cases h2 : k' = s <;>
      simp_all [jmSet, jmLookup]

theorem rightAt_jmSet_left (m : List (String × JBucket)) (k s : String) (r : Value) :
    rightAt (jmSet m k true r) s = rightAt m s := by
  by_cases h : s = k
  · subst h; simp [rightAt, jmLookup_jmSet_left_self]
  · simp [rightAt, jmLookup_jmSet_ne m k s true r h]

theorem leftAt_jmSet_right (m : List (String × JBucket)) (k s : String) (r : Value) :
    leftAt (jmSet m k false r) s = leftAt m s := by
  by_cases h : s = k
  · subst h; simp [leftAt, jmLookup_jmSet_right_self]
  · simp [leftAt, jmLookup_jmSet_ne m k s false r h]

theorem leftAt_jmSet_left_self (m : List (String × JBucket)) (k : String) (r : Value) :
    leftAt (jmSet m k true r) k = some r := by
  simp [leftAt, jmLookup_jmSet_left_self]

theorem rightAt_jmSet_right_self (m : List (String × JBucket)) (k : String) (r : Value) :
    rightAt (jmSet m k false r) k = some r := by
  simp [rightAt, jmLookup_jmSet_right_self]

theorem leftAt_jmSet_left_ne (m : List (String × JBucket)) (k s : String) (r : Value)
    (h : s ≠ k) : leftAt (jmSet m k true r) s = leftAt m s := by
  simp [leftAt, jmLookup_jmSet_ne m k s true r h]

theorem rightAt_jmSet_right_ne (m : List (String × JBucket)) (k s : String) (r : Value)
    (h : s ≠ k) : rightAt (jmSet m k false r) s = rightAt m s := by
  simp [rightAt, jmLookup_jmSet_ne m k s false r h]

theorem mem_keys_jmSet (m : List (String × JBucket)) (k x : String) (isLeft : Bool)
    (r : Value) (h : x ∈ (jmSet m k isLeft r).map Prod.fst) :
    x ∈ m.map Prod.fst ∨ x = k := by
  induction m with
  | nil => simpa [jmSet] using h
  | cons e m ih =>
    obtain ⟨k', b⟩ := e
    by_cases h1 : k' = k
    · simp only [jmSet, if_pos h1, List.map_cons, List.mem_cons] at h ⊢
      tauto
    · simp only [jmSet, if_neg h1, List.map_cons, List.mem_cons] at h ⊢
      rcases h with h | h
      · exact Or.inl (Or.inl h)
      · rcases ih h with h' | h'
        · exact Or.inl (Or.inr h')
        · exact Or.inr h'

theorem keys_nodup_jmSet (m : List (String × JBucket)) (k : String) (isLeft : Bool)
    (r : Value) (h : (m.map Prod.fst).Nodup) :
    ((jmSet m k isLeft r).map Prod.fst).Nodup := by
  induction m with
  | nil => simp [jmSet]
  | cons e m ih =>
    obtain ⟨k', b⟩ := e
    simp only [List.map_cons, List.nodup_cons] at h
    by_cases h1 : k' = k
    · simpa [jmSet, if_pos h1, List.nodup_cons] using h
    · simp only [jmSet, if_neg h1, List.map_cons, List.nodup_cons]
      refine ⟨fun hmem => ?_, ih h.2⟩
      rcases mem_keys_jmSet m k k' isLeft r hmem with h' | h'
      · exact h.1 h'
      · exact h1 h'

theorem keys_nodup_buildSideGo (key : String) (flag isLeft : Bool)
    (supply : Nat → String) :
    ∀ (rows : List Value) (m : List (String × JBucket)) (ctr : Nat),
      (m.map Prod.fst).Nodup →
      (((buildSideGo key flag isLeft supply rows m ctr).1).map Prod.fst).Nodup := by
  intro rows
  induction rows with
  | nil => intro m ctr h; simpa [buildSideGo] using h
  | cons r rows ih =>
    intro m ctr h
    by_cases ht : truthy (jsProp r key)
    · simpa [buildSideGo, ht] using ih _ _ (keys_nodup_jmSet m _ isLeft r h)
    · by_cases hf : flag
      · simpa [buildSideGo, ht, hf] using ih _ _ (keys_nodup_jmSet m _ isLeft r h)
      · simpa [buildSideGo, ht, hf] using ih _ _ (keys_nodup_jmSet m _ isLeft r h)

theorem jmSet_bucket_truthy (m : List (String × JBucket)) (k : String) (isLeft : Bool)
    (r : Value) (hr : truthy r = true)
    (hm : ∀ kb ∈ m, (optTruthy kb.2.1 || optTruthy kb.2.2) = true) :
    ∀ kb ∈ jmSet m k isLeft r, (optTruthy kb.2.1 || optTruthy kb.2.2) = true := by
  induction m with
  | nil =>
    intro kb hkb
    simp only [jmSet, List.mem_singleton] at hkb
    subst hkb
    cases isLeft <;> simp [optTruthy, hr]
  | cons e m ih =>
    obtain ⟨k', b⟩ := e
    intro kb hkb
    by_cases h1 : k' = k
    · simp only [jmSet, if_pos h1, List.mem_cons] at hkb
      rcases hkb with hkb | hkb
      · subst hkb
        cases isLeft with
        | true => simp [optTruthy, hr]
        | false => simp [optTruthy, hr]
      · exact hm kb (List.mem_cons_of_mem _ hkb)
    · simp only [jmSet, if_neg h1, List.mem_cons] at hkb
      rcases hkb with hkb | hkb
      · exact hm kb (hkb ▸ List.mem_cons_self _ _)
      · exact ih (fun kb' h' => hm kb' (List.mem_cons_of_mem _ h')) kb hkb

theorem buildSideGo_bucket_truthy (key : String) (flag isLeft : Bool)
    (supply : Nat → String) :
    ∀ (rows : List Value) (m : List (String × JBucket)) (ctr : Nat),
      (∀ r ∈ rows, truthy r = true) →
      (∀ kb ∈ m, (optTruthy kb.2.1 || optTruthy kb.2.2) = true) →
      ∀ kb ∈ (buildSideGo key flag isLeft supply rows m ctr).1,
        (optTruthy kb.2.1 || optTruthy kb.2.2) = true := by
  intro rows
  induction rows with
  | nil => intro m ctr _ hm; simpa [buildSideGo] using hm
  | cons r rows ih =>
    intro m ctr hrows hm
    have hr : truthy r = true := hrows r (List.mem_cons_self _ _)
    have hrest : ∀ r' ∈ rows, truthy r' = true :=
      fun r' h' => hrows r' (List.mem_cons_of_mem _ h')
    by_cases ht : truthy (jsProp r key)
    · simpa [buildSideGo, ht] using ih _ _ hrest (jmSet_bucket_truthy m _ isLeft r hr hm)
    · by_cases hf : flag
      · simpa [buildSideGo, ht, hf] using
          ih _ _ hrest (jmSet_bucket_truthy m _ isLeft r hr hm)
      · simpa [buildSideGo, ht, hf] using
          ih _ _ hrest (jmSet_bucket_truthy m _ isLeft r hr hm)

theorem leftAt_buildSideGo_left (key : String) (flag : Bool) (supply : Nat → String)
    (s : String) (hs : ∀ i, supply i ≠ s) :
    ∀ (rows : List Value) (m : List (String × JBucket)) (ctr : Nat),
      (∀ r ∈ rows, truthy (jsProp r key) = true ∨ flag = true) →
      leftAt (buildSideGo key flag true supply rows m ctr).1 s =
        match lastRowWithKey rows key s with
        | some r' => some r'
        | none => leftAt m s := by
  intro rows
  induction rows with
  | nil => intro m ctr _; simp [buildSideGo, lastRowWithKey]
  | cons r rows ih =>
    intro m ctr hrows
    have hrest : ∀ r' ∈ rows, truthy (jsProp r' key) = true ∨ flag = true :=
      fun r' h' => hrows r' (List.mem_cons_of_mem _ h')
    by_cases ht : truthy (jsProp r key)
    · rw [show buildSideGo key flag true supply (r :: rows) m ctr =
          buildSideGo key flag true supply rows
            (jmSet m (jsToString (jsProp r key)) true r) ctr from by
        simp [buildSideGo, ht]]
      rw [ih _ _ hrest]
      cases hlast : lastRowWithKey rows key s with
      | some r' => simp [lastRowWithKey, hlast]
      | none =>
        by_cases hk : jsToString (jsProp r key) = s
        · simp only [lastRowWithKey, hlast, ht, hk]
          rw [← hk, leftAt_jmSet_left_self]
          simp
        · simp only [lastRowWithKey, hlast, ht]
          rw [leftAt_jmSet_left_ne m _ s r (Ne.symm hk)]
          simp [hk]
    · rcases hrows r (List.mem_cons_self _ _) with h' | hf
      · exact absurd h' (by simpa using ht)
      · rw [show buildSideGo key flag true supply (r :: rows) m ctr =
            buildSideGo key flag true supply rows
              (jmSet m (supply ctr) true r) (ctr + 1) from by
          simp [buildSideGo, ht, hf]]
        rw [ih _ _ hrest]
        rw [leftAt_jmSet_left_ne m _ s r (Ne.symm (hs ctr))]
        cases hlast : lastRowWithKey rows key s <;> simp [lastRowWithKey, hlast, ht]

theorem rightAt_buildSideGo_left (key : String) (flag : Bool) (supply : Nat → String)
    (s : String) :
    ∀ (rows : List Value) (m : List (String × JBucket)) (ctr : Nat),
      rightAt (buildSideGo key flag true supply rows m ctr).1 s = rightAt m s := by
  intro rows
  induction rows with
  | nil => intro m ctr; simp [buildSideGo]
  | cons r rows ih =>
    intro m ctr
    by_cases ht : truthy (jsProp r key)
    · rw [show buildSideGo key flag true supply (r :: rows) m ctr =
          buildSideGo key flag true supply rows
            (jmSet m (jsToString (jsProp r key)) true r) ctr from by
        simp [buildSideGo, ht]]
      rw [ih, rightAt_jmSet_left]
    · by_cases hf : flag
      · rw [show buildSideGo key flag true supply (r :: rows) m ctr =
            buildSideGo key flag true supply rows
              (jmSet m (supply ctr) true r) (ctr + 1) from by
          simp [buildSideGo, ht, hf]]
        rw [ih, rightAt_jmSet_left]
      · rw [show buildSideGo key flag true supply (r :: rows) m ctr =
            buildSideGo key flag true supply rows
              (jmSet m "undefined" true r) ctr from by
          simp [buildSideGo, ht, hf]]
        rw [ih, rightAt_jmSet_left]

theorem rightAt_buildSideGo_right (key : String) (flag : Bool) (supply : Nat → String)
    (s : String) (hs : ∀ i, supply i ≠ s) :
    ∀ (rows : List Value) (m : List (String × JBucket)) (ctr : Nat),
      (∀ r ∈ rows, truthy (jsProp r key) = true ∨ flag = true) →
      rightAt (buildSideGo key flag false supply rows m ctr).1 s =
        match lastRowWithKey rows key s with
        | some r' => some r'
        | none => rightAt m s := by
  intro rows
  induction rows with
  | nil => intro m ctr _; simp [buildSideGo, lastRowWithKey]
  | cons r rows ih =>
    intro m ctr hrows
    have hrest : ∀ r' ∈ rows, truthy (jsProp r' key) = true ∨ flag = true :=
      fun r' h' => hrows r' (List.mem_cons_of_mem _ h')
    by_cases ht : truthy (jsProp r key)
    · rw [show buildSideGo key flag false supply (r :: rows) m ctr =
          buildSideGo key flag false supply rows
            (jmSet m (jsToString (jsProp r key)) false r) ctr from by
        simp [buildSideGo, ht]]
      rw [ih _ _ hrest]
      cases hlast : lastRowWithKey rows key s with
      | some r' => simp [lastRowWithKey, hlast]
      | none =>
        by_cases hk : jsToString (jsProp r key) = s
        · simp only [lastRowWithKey, hlast, ht, hk]
          rw [← hk, rightAt_jmSet_right_self]
          simp
        · simp only [lastRowWithKey, hlast, ht]
          rw [rightAt_jmSet_right_ne m _ s r (Ne.symm hk)]
          simp [hk]
    · rcases hrows r (List.mem_cons_self _ _) with h' | hf
      · exact absurd h' (by simpa using ht)
      · rw [show buildSideGo key flag false supply (r :: rows) m ctr =
            buildSideGo key flag false supply rows
              (jmSet m (supply ctr) false r) (ctr + 1) from by
          simp [buildSideGo, ht, hf]]
        rw [ih _ _ hrest]
        rw [rightAt_jmSet_right_ne m _ s r (Ne.symm (hs ctr))]
        cases hlast : lastRowWithKey rows key s <;> simp [lastRowWithKey, hlast, ht]

theorem leftAt_buildSideGo_right (key : String) (flag : Bool) (supply : Nat → String)
    (s : String) :
    ∀ (rows : List Value) (m : List (String × JBucket)) (ctr : Nat),
      leftAt (buildSideGo key flag false supply rows m ctr).1 s = leftAt m s := by
  intro rows
  induction rows with
  | nil => intro m ctr; simp [buildSideGo]
  | cons r rows ih =>
    intro m ctr
    by_cases ht : truthy (jsProp r key)
    · rw [show buildSideGo key flag false supply (r :: rows) m ctr =
          buildSideGo key flag false supply rows
            (jmSet m (jsToString (jsProp r key)) false r) ctr from by
        simp [buildSideGo, ht]]
      rw [ih, leftAt_jmSet_right]
    · by_cases hf : flag
      · rw [show buildSideGo key flag false supply (r :: rows) m ctr =
            buildSideGo key flag false supply rows
              (jmSet m (supply ctr) false r) (ctr + 1) from by
          simp [buildSideGo, ht, hf]]
        rw [ih, leftAt_jmSet_right]
      · rw [show buildSideGo key flag false supply (r :: rows) m ctr =
            buildSideGo key flag false supply rows
              (jmSet m "undefined" false r) ctr from by
          simp [buildSideGo, ht, hf]]
        rw [ih, leftAt_jmSet_right]

/-- C10: when rows on one side share the same truthy join-key value, the
later row overwrites the earlier one in the bucket, so only the last
contributes; the output has exactly one row per distinct bucket key
(bucket keys are duplicate-free and, for truthy object rows, the filter
keeps every bucket), never one row per matched input pair.  Hypotheses:
rows are (truthy) objects, every row either has a truthy key field or its
side's include-unmatched flag is set, and — for the bucket inspected —
the uuid placeholder supply never collides with the inspected key. -/
theorem join_last_row_wins_one_row_per_bucket (left right : Joiner)
    (mapFn : Option (Value → Value → Value)) (supply : Nat → String)
    (hTL : ∀ r ∈ left.col, truthy r = true) (hTR : ∀ r ∈ right.col, truthy r = true)
    (hKL : ∀ r ∈ left.col, truthy (jsProp r left.key) = true ∨ left.null = true)
    (hKR : ∀ r ∈ right.col, truthy (jsProp r right.key) = true ∨ right.null = true) :
    joinCollection left right mapFn supply =
        (joinMapOf left right supply).map (fun kb => mergeBucket mapFn kb.2) ∧
      ((joinMapOf left right supply).map Prod.fst).Nodup ∧
      ∀ s, (∀ i, supply i ≠ s) →
        leftAt (joinMapOf left right supply) s = lastRowWithKey left.col left.key s ∧
        rightAt (joinMapOf left right supply) s = lastRowWithKey right.col right.key s := by
  have hq : ∀ kb ∈ joinMapOf left right supply,
      (optTruthy kb.2.1 || optTruthy kb.2.2) = true := by
    intro kb hkb
    refine buildSideGo_bucket_truthy right.key right.null false supply right.col _ _
      hTR ?_ kb hkb
    intro kb' hkb'
    exact buildSideGo_bucket_truthy left.key left.null true supply left.col [] 0
      hTL (by simp) kb' hkb'
  refine ⟨?_, ?_, ?_⟩
  · unfold joinCollection
    rw [List.filter_eq_self.mpr hq]
  · exact keys_nodup_buildSideGo right.key right.null false supply right.col _ _
      (keys_nodup_buildSideGo left.key left.null true supply left.col [] 0 (by simp))
  · intro s hs
    constructor
    · simp only [joinMapOf, buildSide]
      rw [leftAt_buildSideGo_right right.key right.null supply s right.col _ _]
      rw [leftAt_buildSideGo_left left.key left.null supply s hs left.col [] 0 hKL]
      cases hlast : lastRowWithKey left.col left.key s <;> simp [leftAt, jmLookup]
    · simp only [joinMapOf, buildSide]
      rw [rightAt_buildSideGo_right right.key right.null supply s hs right.col _ _ hKR]
      rw [rightAt_buildSideGo_left left.key left.null supply s left.col [] 0]
      cases hlast : lastRowWithKey right.col right.key s <;> simp [rightAt, jmLookup]

/-- Witness for `join_last_row_wins_one_row_per_bucket`: two left rows
share key `"x"`; the bucket keeps the second, and the join map has
duplicate-free keys. -/
theorem join_last_row_wins_one_row_per_bucket_witness :
    leftAt
        (joinMapOf
          ⟨[.vobj [("k", .vstr "x"), ("v", .vnum 1)],
            .vobj [("k", .vstr "x"), ("v", .vnum 2)]], "k", false⟩
          ⟨[.vobj [("k", .vstr "x"), ("w", .vnum 3)]], "k", false⟩
          (fun _ => "placeholder")) "x" =
        some (.vobj [("k", .vstr "x"), ("v", .vnum 2)]) ∧
      ((joinMapOf
          ⟨[.vobj [("k", .vstr "x"), ("v", .vnum 1)],
            .vobj [("k", .vstr "x"), ("v", .vnum 2)]], "k", false⟩
          ⟨[.vobj [("k", .vstr "x"), ("w", .vnum 3)]], "k", false⟩
          (fun _ => "placeholder")).map Prod.fst).Nodup := by
  have h := join_last_row_wins_one_row_per_bucket
    ⟨[.vobj [("k", .vstr "x"), ("v", .vnum 1)],
      .vobj [("k", .vstr "x"), ("v", .vnum 2)]], "k", false⟩
    ⟨[.vobj [("k", .vstr "x"), ("w", .vnum 3)]], "k", false⟩
    none (fun _ => "placeholder")
    (by decide) (by decide) (by decide) (by decide)
  have hp : ("placeholder" : String) ≠ "x" := by decide
  refine ⟨?_, h.2.1⟩
  rw [(h.2.2 "x" (fun _ => hp)).1]
  decide

/-! ## Claim C5: document ids stay unique

JS objects cannot hold two bindings for one key; the embedding's
`Value.vobj` association lists can.  `nodupTree` states that every object
node in a tree has duplicate-free keys — true of every value a JS program
can build — and is preserved by all collection operations, so the
document table's keys (the document ids) are always duplicate-free. -/

mutual

/-- Every object node in the tree has duplicate-free keys. -/
def nodupTree : Value → Bool
  | .vundef => true
  | .vnull => true
  | .vbool _ => true
  | .vnum _ => true
  | .vstr _ => true
  | .varr xs => nodupTreeList xs
  | .vobj fs => decide ((fs.map Prod.fst).Nodup) && nodupTreeFields fs

def nodupTreeList : List Value → Bool
  | [] => true
  | x :: xs => nodupTree x && nodupTreeList xs

def nodupTreeFields : List (String × Value) → Bool
  | [] => true
  | kv :: fs => nodupTree kv.2 && nodupTreeFields fs

end

theorem nodupTree_vobj_iff (fs : List (String × Value)) :
    nodupTree (.vobj fs) = true ↔
      (fs.map Prod.fst).Nodup ∧ nodupTreeFields fs = true := by
  simp [nodupTree, Bool.and_eq_true, decide_eq_true_iff]

theorem nodupTreeList_mem (xs : List Value) (x : Value) (h : nodupTreeList xs = true)
    (hm : x ∈ xs) : nodupTree x = true := by
  induction xs with
  | nil => cases hm
  | cons y ys ih =>
    simp only [nodupTreeList, Bool.and_eq_true] at h
    rcases List.mem_cons.mp hm with rfl | hm'
    · exact h.1
    · exact ih h.2 hm'

theorem nodupTreeFields_mem (fs : List (String × Value)) (kv : String × Value)
    (h : nodupTreeFields fs = true) (hm : kv ∈ fs) : nodupTree kv.2 = true := by
  induction fs with
  | nil => cases hm
  | cons f fs ih =>
    simp only [nodupTreeFields, Bool.and_eq_true] at h
    rcases List.mem_cons.mp hm with rfl | hm'
    · exact h.1
    · exact ih h.2 hm'

theorem nodupTreeList_append (xs ys : List Value) :
    nodupTreeList (xs ++ ys) = (nodupTreeList xs && nodupTreeList ys) := by
  induction xs with
  | nil => simp [nodupTreeList]
  | cons x xs ih => simp [nodupTreeList, ih, Bool.and_assoc]

theorem nodupTreeList_sublist (xs ys : List Value) (hs : List.Sublist xs ys)
    (h : nodupTreeList ys = true) : nodupTreeList xs = true := by
  induction hs with
  | slnil => exact h
  | cons y _ ih =>
    simp only [nodupTreeList, Bool.and_eq_true] at h
    exact ih h.2
  | cons₂ y hsub ih =>
    simp only [nodupTreeList, Bool.and_eq_true] at h ⊢
    exact ⟨h.1, ih h.2⟩

theorem nodupTreeList_set (xs : List Value) (i : Nat) (c : Value)
    (h : nodupTreeList xs = true) (hc : nodupTree c = true) :
    nodupTreeList (xs.set i c) = true := by
  induction xs generalizing i with
  | nil => simpa using h
  | cons x xs ih =>
    simp only [nodupTreeList, Bool.and_eq_true] at h
    cases i with
    | zero => simp [List.set, nodupTreeList, hc, h.2]
    | succ j => simp [List.set, nodupTreeList, h.1, ih j h.2]

theorem nodupTree_objGet (fs : List (String × Value)) (k : String)
    (h : nodupTreeFields fs = true) : nodupTree (Value.objGet fs k) = true := by
  induction fs with
  | nil => rfl
  | cons f fs ih =>
    obtain ⟨k', v⟩ := f
    simp only [nodupTreeFields, Bool.and_eq_true] at h
    by_cases hk : k' = k
    · simpa [Value.objGet, hk] using h.1
    · simpa [Value.objGet, hk] using ih h.2

theorem mem_keys_objSet (fs : List (String × Value)) (k x : String) (v : Value)
    (h : x ∈ (Value.objSet fs k v).map Prod.fst) : x ∈ fs.map Prod.fst ∨ x = k := by
  induction fs with
  | nil => simpa [Value.objSet] using h
  | cons f fs ih =>
    obtain ⟨k', v'⟩ := f
    by_cases hk : k' = k
    · simp only [Value.objSet, if_pos hk, List.map_cons, List.mem_cons] at h ⊢
      tauto
    · simp only [Value.objSet, if_neg hk, List.map_cons, List.mem_cons] at h ⊢
      rcases h with h | h
      · exact Or.inl (Or.inl h)
      · rcases ih h with h' | h'
        · exact Or.inl (Or.inr h')
        · exact Or.inr h'

theorem nodup_keys_objSet (fs : List (String × Value)) (k : String) (v : Value)
    (h : (fs.map Prod.fst).Nodup) : ((Value.objSet fs k v).map Prod.fst).Nodup := by
  induction fs with
  | nil => simp [Value.objSet]
  | cons f fs ih =>
    obtain ⟨k', v'⟩ := f
    simp only [List.map_cons, List.nodup_cons] at h
    by_cases hk : k' = k
    · simpa [Value.objSet, if_pos hk, List.nodup_cons] using h
    · simp only [Value.objSet, if_neg hk, List.map_cons, List.nodup_cons]
      refine ⟨fun hmem => ?_, ih h.2⟩
      rcases mem_keys_objSet fs k k' v hmem with h' | h'
      · exact h.1 h'
      · exact hk h'

theorem nodupTreeFields_objSet (fs : List (String × Value)) (k : String) (v : Value)
    (h : nodupTreeFields fs = true) (hv : nodupTree v = true) :
    nodupTreeFields (Value.objSet fs k v) = true := by
  induction fs with
  | nil => simp [Value.objSet, nodupTreeFields, hv]
  | cons f fs ih =>
    obtain ⟨k', v'⟩ := f
    simp only [nodupTreeFields, Bool.and_eq_true] at h
    by_cases hk : k' = k
    · simp [Value.objSet, if_pos hk, nodupTreeFields, hv, h.2]
    · simp [Value.objSet, if_neg hk, nodupTreeFields, h.1, ih h.2]

theorem nodupTree_objSet (fs : List (String × Value)) (k : String) (v : Value)
    (h : nodupTree (.vobj fs) = true) (hv : nodupTree v = true) :
    nodupTree (.vobj (Value.objSet fs k v)) = true := by
  rw [nodupTree_vobj_iff] at h ⊢
  exact ⟨nodup_keys_objSet fs k v h.1, nodupTreeFields_objSet fs k v h.2 hv⟩

/-- Scalar (neither array nor plain-object) nodes under a remaining
path: the traversal either stops (last segment) or continues from a
detached empty object. -/
theorem dotGetterRaw_scalar_aux (rest : List String) (pn : String)
    (ih : ∀ t : Value, nodupTree t = true → nodupTree (dotGetterRaw t rest) = true)
    (d : Value) (hd : nodupTree d = true)
    (he : dotGetterRaw d (pn :: rest) =
      if rest.isEmpty then d else dotGetterRaw (.vobj []) rest) :
    nodupTree (dotGetterRaw d (pn :: rest)) = true := by
  rw [he]
  by_cases h : rest.isEmpty
  · simpa [h] using hd
  · simpa [h] using ih (.vobj []) rfl

theorem nodupTree_arrIndex (xs : List Value) (pn : String)
    (h : nodupTreeList xs = true) : nodupTree (arrIndex xs pn) = true := by
  unfold arrIndex
  cases jsParseInt pn with
  | none => rfl
  | some i =>
    by_cases hr : 0 ≤ i ∧ i.toNat < xs.length
    · simp only [dif_pos hr]
      exact nodupTreeList_mem xs _ h (List.get_mem xs _ _)
    · simp only [dif_neg hr]; rfl

theorem nodupTree_dotGetterRaw (p : List String) :
    ∀ t : Value, nodupTree t = true → nodupTree (dotGetterRaw t p) = true := by
  induction p with
  | nil => intro t h; simpa [dotGetterRaw] using h
  | cons pn rest ih =>
    intro t h
    match t with
    | .varr xs =>
      by_cases hd : hasDigit pn
      · rw [show dotGetterRaw (.varr xs) (pn :: rest) = dotGetterRaw (arrIndex xs pn) rest
          from by simp [dotGetterRaw, hd]]
        exact ih _ (nodupTree_arrIndex xs pn (by simpa [nodupTree] using h))
      · by_cases he : rest.isEmpty
        · rw [show dotGetterRaw (.varr xs) (pn :: rest) = .varr xs from by
            simp [dotGetterRaw, hd, he]]
          exact h
        · rw [show dotGetterRaw (.varr xs) (pn :: rest) = dotGetterRaw (.vobj []) rest from by
            simp [dotGetterRaw, hd, he]]
          exact ih _ (by decide)
    | .vobj fs =>
      rw [show dotGetterRaw (.vobj fs) (pn :: rest) =
          dotGetterRaw (Value.objGet fs pn) rest from by simp [dotGetterRaw]]
      exact ih _ (nodupTree_objGet fs pn ((nodupTree_vobj_iff fs).mp h).2)
    | .vundef =>
      exact dotGetterRaw_scalar_aux rest pn ih _ h (by simp [dotGetterRaw])
    | .vnull =>
      exact dotGetterRaw_scalar_aux rest pn ih _ h (by simp [dotGetterRaw])
    | .vbool b =>
      exact dotGetterRaw_scalar_aux rest pn ih _ h (by simp [dotGetterRaw])
    | .vnum m =>
      exact dotGetterRaw_scalar_aux rest pn ih _ h (by simp [dotGetterRaw])
    | .vstr s =>
      exact dotGetterRaw_scalar_aux rest pn ih _ h (by simp [dotGetterRaw])

theorem nodupTree_normEmptyObj : ∀ v : Value, nodupTree v = true →
    nodupTree (normEmptyObj v) = true
  | .vobj [], _ => rfl
  | .vobj (_ :: _), h => h
  | .vundef, h => h
  | .vnull, h => h
  | .vbool _, h => h
  | .vnum _, h => h
  | .vstr _, h => h
  | .varr _, h => h

theorem nodupTree_dotGetter (t : Value) (p : List String) (h : nodupTree t = true) :
    nodupTree (dotGetter t p) = true :=
  nodupTree_normEmptyObj _ (nodupTree_dotGetterRaw p t h)

theorem nodupTree_dbGetD (t : Value) (p : List String) (d : Value)
    (h : nodupTree t = true) (hd : nodupTree d = true) :
    nodupTree (dbGetD t p d) = true := by
  unfold dbGetD
  cases hr : dotGetter t p
  case vundef => exact hd
  all_goals (have hg := nodupTree_dotGetter t p h; rw [hr] at hg; exact hg)

theorem nodupTree_jsProp (o : Value) (k : String) (h : nodupTree o = true) :
    nodupTree (jsProp o k) = true := by
  cases o
  case vobj fs => exact nodupTree_objGet fs k ((nodupTree_vobj_iff fs).mp h).2
  all_goals rfl

theorem nodupTree_jsEntries (o : Value) (kv : String × Value) (h : nodupTree o = true)
    (hm : kv ∈ jsEntries o) : nodupTree kv.2 = true := by
  cases o <;> simp [jsEntries] at hm
  case vobj fs => exact nodupTreeFields_mem fs kv ((nodupTree_vobj_iff fs).mp h).2 hm

theorem nodupTreeList_asArr (w : Value) (h : nodupTree w = true) :
    nodupTreeList (asArr w) = true := by
  cases w
  case varr xs => simpa [asArr, nodupTree] using h
  all_goals rfl

theorem nodupTree_dotSetAux (p : List String) :
    ∀ (t v t' : Value), nodupTree t = true → nodupTree v = true →
      dotSetAux t p v = some t' → nodupTree t' = true := by
  induction p with
  | nil =>
    intro t v t' h hv heq
    match t, heq with
    | .vobj fs, heq =>
      simp only [dotSetAux, Option.some_inj] at heq
      exact heq ▸ nodupTree_objSet fs "undefined" v h hv
  | cons k rest ih =>
    intro t v t' h hv heq
    cases rest with
    | nil =>
      match t, heq with
      | .vobj fs, heq =>
        simp only [dotSetAux, Option.some_inj] at heq
        exact heq ▸ nodupTree_objSet fs k v h hv
    | cons k2 rest2 =>
      match t, heq with
      | .varr xs, heq =>
        simp only [dotSetAux] at heq
        by_cases hd : hasDigit k
        · rw [if_pos hd] at heq
          cases hpi : jsParseInt k with
          | none => rw [hpi] at heq; cases heq
          | some i =>
            rw [hpi] at heq
            by_cases hr : 0 ≤ i ∧ i.toNat < xs.length
            · simp only [dif_pos hr] at heq
              obtain ⟨c, hc, rfl⟩ := Option.map_eq_some'.mp heq
              have hel : nodupTree (xs.get ⟨i.toNat, hr.2⟩) = true :=
                nodupTreeList_mem xs _ (by simpa [nodupTree] using h)
                  (List.get_mem xs _ _)
              have := ih _ v c hel hv hc
              simpa [nodupTree] using nodupTreeList_set xs i.toNat c
                (by simpa [nodupTree] using h) this
            · simp only [dif_neg hr] at heq; cases heq
        · rw [if_neg hd] at heq; cases heq
      | .vobj fs, heq =>
        simp only [dotSetAux] at heq
        obtain ⟨c, hc, rfl⟩ := Option.map_eq_some'.mp heq
        have := ih _ v c (nodupTree_objGet fs k ((nodupTree_vobj_iff fs).mp h).2) hv hc
        exact nodupTree_objSet fs k c h this

theorem nodupTree_dotSetter (t : Value) (p : List String) (v : Value)
    (h : nodupTree t = true) (hv : nodupTree v = true) :
    nodupTree (dotSetter t p v) = true := by
  unfold dotSetter
  cases heq : dotSetAux t p v with
  | none => simpa using h
  | some t' => simpa using nodupTree_dotSetAux p t v t' h hv heq

theorem nodupTree_setter_fold (l : List String) (t : Value)
    (pathOf : String → List String) (w : String → Value)
    (h : nodupTree t = true) (hw : ∀ u, nodupTree (w u) = true) :
    nodupTree (l.foldl (fun t' u => dotSetter t' (pathOf u) (w u)) t) = true := by
  induction l generalizing t with
  | nil => simpa using h
  | cons u l ih => exact ih _ (nodupTree_dotSetter t (pathOf u) (w u) h (hw u))

theorem nodupTree_addDuplicate (t : Value) (n : String) (entry : Value)
    (h : nodupTree t = true) : nodupTree (addDuplicate t n entry) = true := by
  unfold addDuplicate
  exact nodupTree_setter_fold _ t _ _ h (fun _ => rfl)

theorem nodupTree_removeDuplicate (t : Value) (n : String) (entry : Value)
    (h : nodupTree t = true) : nodupTree (removeDuplicate t n entry) = true := by
  unfold removeDuplicate
  exact nodupTree_setter_fold _ t _ _ h (fun _ => rfl)

theorem nodupTree_addIndex (t : Value) (n : String) (entry : Value) (idV : Value)
    (h : nodupTree t = true) (hid : nodupTree idV = true) :
    nodupTree (addIndex t n entry idV) = true := by
  unfold addIndex
  generalize jsEntries entry = kvs
  generalize jsKeys (indexesMeta t n) = idxKeys
  induction kvs generalizing t with
  | nil => simpa using h
  | cons kv kvs ih =>
    simp only [List.foldl_cons]
    refine ih _ ?_
    by_cases hk : kv.1 ∈ idxKeys
    · simp only [if_pos hk]
      by_cases hmem : idV ∈ asArr (getIndex t n kv.1 kv.2)
      · simpa [hmem] using h
      · simp only [hmem, if_false]
        refine nodupTree_dotSetter _ _ _ h ?_
        have hids : nodupTreeList (asArr (getIndex t n kv.1 kv.2)) = true :=
          nodupTreeList_asArr _ (nodupTree_dbGetD t _ _ h rfl)
        simpa [nodupTree, nodupTreeList_append, nodupTreeList, hids] using hid
    · simpa [hk] using h

theorem nodupTree_removeIndex (t : Value) (n : String) (c : Value) (idV : Value)
    (h : nodupTree t = true) : nodupTree (removeIndex t n c idV) = true := by
  unfold removeIndex
  generalize jsEntries c = kvs
  generalize jsKeys (indexesMeta t n) = idxKeys
  induction kvs generalizing t with
  | nil => simpa using h
  | cons kv kvs ih =>
    simp only [List.foldl_cons]
    refine ih _ ?_
    by_cases hk : kv.1 ∈ idxKeys
    · simp only [if_pos hk]
      refine nodupTree_dotSetter _ _ _ h ?_
      have hids : nodupTreeList (asArr (getIndex t n kv.1 kv.2)) = true :=
        nodupTreeList_asArr _ (nodupTree_dbGetD t _ _ h rfl)
      have hsub : List.Sublist (jsSpliceRemove (asArr (getIndex t n kv.1 kv.2)) idV)
          (asArr (getIndex t n kv.1 kv.2)) := by
        unfold jsSpliceRemove
        by_cases hmem : idV ∈ asArr (getIndex t n kv.1 kv.2)
        · simpa [hmem] using List.erase_sublist _ _
        · simpa [hmem] using List.dropLast_sublist _
      simpa [nodupTree] using nodupTreeList_sublist _ _ hsub hids
    · simpa [hk] using h

theorem nodupTree_spreadInto (base more : List (String × Value))
    (h : nodupTree (.vobj base) = true) (hm : ∀ kv ∈ more, nodupTree kv.2 = true) :
    nodupTree (.vobj (spreadInto base more)) = true := by
  induction more generalizing base with
  | nil => simpa [spreadInto] using h
  | cons kv more ih =>
    simp only [spreadInto, List.foldl_cons]
    exact ih _ (nodupTree_objSet base kv.1 kv.2 h (hm kv (List.mem_cons_self _ _)))
      (fun kv' h' => hm kv' (List.mem_cons_of_mem _ h'))

theorem nodupTree_create (t : Value) (n : String) (entry : Value) (fresh : String)
    (h : nodupTree t = true) (he : nodupTree entry = true) :
    nodupTree (create t n entry fresh).2.1 = true := by
  unfold create
  by_cases hd : isDuplicate t n entry
  · simpa [hd] using h
  · simp only [hd, if_false]
    have hid : nodupTree (if truthy (jsProp entry "_id") then jsProp entry "_id"
        else .vstr fresh) = true := by
      by_cases ht : truthy (jsProp entry "_id")
      · simpa [ht] using nodupTree_jsProp entry "_id" he
      · simp [ht, nodupTree]
    have hdoc : nodupTree (.vobj (spreadInto
        [("_id", if truthy (jsProp entry "_id") then jsProp entry "_id" else .vstr fresh)]
        (jsEntries entry))) = true := by
      refine nodupTree_spreadInto _ _ ?_ (fun kv h' => nodupTree_jsEntries entry kv he h')
      simpa [nodupTree, nodupTreeFields, Bool.and_eq_true] using hid
    exact nodupTree_addIndex _ n entry _
      (nodupTree_dotSetter _ _ _ (nodupTree_addDuplicate t n entry h) hdoc) hid

theorem nodupTree_find_mem (t : Value) (n : String) (cond : Value) (c : Value)
    (h : nodupTree t = true) (hm : c ∈ (find t n cond).1) : nodupTree c = true := by
  unfold find at hm
  simp only at hm
  by_cases hfast : isObjectNotNull cond = true ∧ (jsKeys cond).length = 1
  · rw [if_pos hfast] at hm
    by_cases hidx : (jsKeys cond).headD "" ∈ jsKeys (indexesMeta t n)
    · rw [if_pos hidx] at hm
      simp only [getByIdx, List.mem_map] at hm
      obtain ⟨el, _, rfl⟩ := hm
      simp only [getById, List.headD]
      exact nodupTree_dotGetter t _ h
    · rw [if_neg hidx] at hm
      by_cases hid : (jsKeys cond).headD "" = "_id"
      · rw [if_pos hid] at hm
        simp only [getById, List.mem_singleton] at hm
        exact hm ▸ nodupTree_dotGetter t _ h
      · rw [if_neg hid] at hm
        cases hm
  · rw [if_neg hfast] at hm
    cases hm

theorem nodupTree_data_fold (t : Value) (n : String) (cs : List Value)
    (h : nodupTree t = true) (hcs : ∀ c ∈ cs, nodupTree c = true) :
    nodupTree (cs.foldl
      (fun t' c => dotSetter t' [n, "data", jsToString (jsProp c "_id")] c) t) = true := by
  induction cs generalizing t with
  | nil => simpa using h
  | cons c cs ih =>
    simp only [List.foldl_cons]
    exact ih _ (nodupTree_dotSetter _ _ _ h (hcs c (List.mem_cons_self _ _)))
      (fun c' h' => hcs c' (List.mem_cons_of_mem _ h'))

theorem nodupTree_dup_fold (t : Value) (n : String) (cs : List Value) (add : Bool)
    (h : nodupTree t = true) :
    nodupTree (cs.foldl
      (fun t' c => if add then addDuplicate t' n c else removeDuplicate t' n c) t) = true := by
  induction cs generalizing t with
  | nil => simpa using h
  | cons c cs ih =>
    simp only [List.foldl_cons]
    cases add with
    | true => exact ih _ (by simpa using nodupTree_addDuplicate t n c h)
    | false => exact ih _ (by simpa using nodupTree_removeDuplicate t n c h)

theorem update_some_tree (t : Value) (n : String) (cond : Value)
    (transform : Value → Value) (r : Bool × Value × List Event)
    (hr : update t n cond transform = some r) : r.2.1 = t := by
  simp only [update] at hr
  rcases hf : (find t n cond).1.map transform with _ | ⟨c, cs⟩
  · rw [hf] at hr
    simp only [Option.some_inj] at hr
    rw [← hr]
  · rw [hf] at hr
    cases hr

theorem deleteOp_some_tree (t : Value) (n : String) (cond : Value)
    (r : Value × List Event) (hr : deleteOp t n cond = some r) : r.1 = t := by
  simp only [deleteOp] at hr
  rcases hf : (find t n cond).1 with _ | ⟨c, cs⟩
  · rw [hf] at hr
    simp only [Option.some_inj] at hr
    rw [← hr]
  · rw [hf] at hr
    cases hr

theorem nodupTree_objSet_fold (l : List String) :
    ∀ acc : List (String × Value), nodupTree (.vobj acc) = true →
      nodupTree (.vobj (l.foldl (fun a u => Value.objSet a u (.vobj [])) acc)) = true := by
  induction l with
  | nil => intro acc h; simpa using h
  | cons u l ih =>
    intro acc h
    simp only [List.foldl_cons]
    exact ih _ (nodupTree_objSet acc u (.vobj []) h rfl)

theorem nodupTree_buildCollection (t : Value) (n : String) (u i : List String)
    (h : nodupTree t = true) : nodupTree (buildCollection t n u i) = true := by
  unfold buildCollection
  by_cases ht : truthy (dotGetter t [n])
  · simpa [ht] using h
  · simp only [ht, if_false]
    refine nodupTree_dotSetter t [n] _ h ?_
    have hu := nodupTree_objSet_fold u [] rfl
    have hi := nodupTree_objSet_fold i [] rfl
    rw [nodupTree_vobj_iff]
    refine ⟨by simp, ?_⟩
    simp only [nodupTreeFields, Bool.and_eq_true]
    refine ⟨?_, rfl, trivial⟩
    rw [nodupTree_vobj_iff]
    refine ⟨by simp, ?_⟩
    simp only [nodupTreeFields, Bool.and_eq_true]
    exact ⟨hu, hi, trivial⟩

/-- One collection operation, with the nondeterministic `uuid4()` result
made explicit. -/
inductive COp : Type where
  | opCreate (entry : Value) (fresh : String)
  | opUpdate (cond : Value) (transform : Value → Value)
  | opDelete (cond : Value)

/-- Apply one operation to the tree, keeping only the resulting state.  An
`update`/`delete` that throws (`none`) leaves the tree as it was — both
throws happen before any write — and one that completes also leaves it
unchanged (it matched nothing). -/
def applyOp (t : Value) (n : String) : COp → Value
  | .opCreate entry fresh => (create t n entry fresh).2.1
  | .opUpdate cond transform => ((update t n cond transform).map fun r => r.2.1).getD t
  | .opDelete cond => ((deleteOp t n cond).map Prod.fst).getD t

/-- Apply a sequence of operations. -/
def applyOps (t : Value) (n : String) (ops : List COp) : Value :=
  ops.foldl (fun t' op => applyOp t' n op) t

theorem applyOp_update_eq (t : Value) (n : String) (cond : Value)
    (transform : Value → Value) : applyOp t n (.opUpdate cond transform) = t := by
  show ((update t n cond transform).map fun r => r.2.1).getD t = t
  rcases hr : update t n cond transform with _ | r
  · rfl
  · show r.2.1 = t
    exact update_some_tree t n cond transform r hr

theorem applyOp_delete_eq (t : Value) (n : String) (cond : Value) :
    applyOp t n (.opDelete cond) = t := by
  show ((deleteOp t n cond).map Prod.fst).getD t = t
  rcases hr : deleteOp t n cond with _ | r
  · rfl
  · show r.1 = t
    exact deleteOp_some_tree t n cond r hr

/-- The inputs of an operation are JS-representable: created entries and
transform results are values whose object nodes have duplicate-free keys
(true of every value a JS program can pass in). -/
def OpWf : COp → Prop
  | .opCreate entry _ => nodupTree entry = true
  | .opUpdate _ transform => ∀ v, nodupTree v = true → nodupTree (transform v) = true
  | .opDelete _ => True

theorem nodupTree_applyOps (n : String) (ops : List COp) :
    ∀ t : Value, nodupTree t = true → (∀ op ∈ ops, OpWf op) →
      nodupTree (applyOps t n ops) = true := by
  induction ops with
  | nil => intro t h _; simpa [applyOps] using h
  | cons op ops ih =>
    intro t h hops
    have hstep : nodupTree (applyOp t n op) = true := by
      have hwf := hops op (List.mem_cons_self _ _)
      cases op with
      | opCreate entry fresh => exact nodupTree_create t n entry fresh h hwf
      | opUpdate cond transform => rw [applyOp_update_eq]; exact h
      | opDelete cond => rw [applyOp_delete_eq]; exact h
    simpa [applyOps] using
      ih (applyOp t n op) hstep (fun op' h' => hops op' (List.mem_cons_of_mem _ h'))

/-- C5: after any sequence of collection operations (create, update,
delete) on a freshly built collection, the document table has
duplicate-free ids: the table is a JS object keyed by id, a create with a
caller-supplied `_id` equal to a live document's id overwrites that slot
in place (destroying the old document) rather than ever producing two
documents under one id. -/
theorem document_ids_unique (n : String) (u i : List String) (ops : List COp)
    (hops : ∀ op ∈ ops, OpWf op) (docs : List (String × Value))
    (hdocs : dotGetter (applyOps (buildCollection (.vobj []) n u i) n ops) [n, "data"] =
      .vobj docs) : (docs.map Prod.fst).Nodup := by
  have h0 : nodupTree (buildCollection (.vobj []) n u i) = true :=
    nodupTree_buildCollection (.vobj []) n u i rfl
  have h1 := nodupTree_applyOps n ops _ h0 hops
  have h2 := nodupTree_dotGetter _ [n, "data"] h1
  rw [hdocs] at h2
  exact ((nodupTree_vobj_iff docs).mp h2).1

/-- Witness for `document_ids_unique`: two creates supplying the same
`_id` `"x"` — the second overwrites the first in place and the data table
holds a single binding for `"x"`. -/
theorem document_ids_unique_witness :
    (([("x", Value.vobj [("_id", .vstr "x"), ("b", .vnum 2)])] :
        List (String × Value)).map Prod.fst).Nodup :=
  document_ids_unique "c" [] []
    [.opCreate (.vobj [("_id", .vstr "x"), ("a", .vnum 1)]) "f1",
     .opCreate (.vobj [("_id", .vstr "x"), ("b", .vnum 2)]) "f2"]
    (by
      intro op hop
      rcases List.mem_cons.mp hop with rfl | hop
      · exact rfl
      · rcases List.mem_singleton.mp hop with rfl
        exact rfl)
    [("x", Value.vobj [("_id", .vstr "x"), ("b", .vnum 2)])] (by decide)

/-! ## Claim C7: the secondary-index invariant

The states reachable by create/delete on a single collection named `n`
all have the exact shape `stateShape n mu idx docs`; `invB` is the
(decidable) inductive invariant tying the index buckets to the live
documents.  The lemmas about `removeIndex` and slot tombstoning below
additionally show the index maintenance the per-document removal loop of
`delete` (collection.ts lines 156–159) would perform — the loop the
strict-mode `TypeError` at line 155 makes unreachable. -/

/-- The tree of a one-collection Db: unique map `mu`, index maps `idx`,
document table `docs`. -/
def stateShape (n : String) (mu : Value) (idx docs : List (String × Value)) : Value :=
  .vobj [(n, .vobj [("__meta", .vobj [("unique", mu), ("indexes", .vobj idx)]),
                    ("data", .vobj docs)])]

/-- The unique map of collection `n` (by direct property access). -/
def uniqOf (t : Value) (n : String) : Value :=
  jsProp (jsProp (jsProp t n) "__meta") "unique"

/-- The index maps of collection `n` as an association list. -/
def idxFieldsOf (t : Value) (n : String) : List (String × Value) :=
  jsEntries (jsProp (jsProp (jsProp t n) "__meta") "indexes")

/-- The document table of collection `n` as an association list. -/
def docsOf (t : Value) (n : String) : List (String × Value) :=
  jsEntries (jsProp (jsProp t n) "data")

/-- The ids (as JS strings) of live documents whose field `F` stringifies
to `s`, in document-table order (= insertion order, since ids are never
reused). -/
def liveIds (docs : List (String × Value)) (F s : String) : List Value :=
  docs.filterMap fun kd =>
    match kd.2 with
    | .vobj fs =>
      if F ∈ fs.map Prod.fst ∧ jsToString (Value.objGet fs F) = s then some (.vstr kd.1)
      else none
    | _ => none

/-- The live documents whose field `F` stringifies to `s`, in table
order. -/
def liveDocsF (docs : List (String × Value)) (F s : String) : List Value :=
  docs.filterMap fun kd =>
    match kd.2 with
    | .vobj fs =>
      if F ∈ fs.map Prod.fst ∧ jsToString (Value.objGet fs F) = s then some (.vobj fs)
      else none
    | _ => none

/-- Document-table well-formedness: duplicate-free ids, and every slot is
either the absent-marker or an object with duplicate-free fields whose
`_id` equals its table key. -/
def docsOkB (docs : List (String × Value)) : Bool :=
  decide ((docs.map Prod.fst).Nodup) &&
  docs.all fun kd =>
    match kd.2 with
    | .vundef => true
    | .vobj fs =>
      decide ((fs.map Prod.fst).Nodup) && beqValue (Value.objGet fs "_id") (.vstr kd.1)
    | _ => false

/-- Bucket-map well-formedness for one indexed field `F`: the map is an
object with duplicate-free keys, every bucket equals the live ids for its
value string, and every live document with an `F` field has its value
string present as a bucket key. -/
def bucketsOkB (docs : List (String × Value)) (F : String) (bm : Value) : Bool :=
  match bm with
  | .vobj bkts =>
    decide ((bkts.map Prod.fst).Nodup) &&
    (bkts.all fun sb => beqValue sb.2 (.varr (liveIds docs F sb.1))) &&
    docs.all fun kd =>
      match kd.2 with
      | .vobj fs =>
        if F ∈ fs.map Prod.fst then
          decide (jsToString (Value.objGet fs F) ∈ bkts.map Prod.fst)
        else true
      | _ => true
  | _ => false

/-- The reachable-state invariant for collection `n`: exact shape, `_id`
not a declared index, duplicate-free index fields, well-formed document
table, and exact buckets for every declared index field. -/
def invB (n : String) (t : Value) : Bool :=
  beqValue t (stateShape n (uniqOf t n) (idxFieldsOf t n) (docsOf t n)) &&
  decide (((idxFieldsOf t n).map Prod.fst).Nodup) &&
  !(decide ("_id" ∈ (idxFieldsOf t n).map Prod.fst)) &&
  docsOkB (docsOf t n) &&
  (idxFieldsOf t n).all fun fb => bucketsOkB (docsOf t n) fb.1 fb.2

/-- The condition under which a single-field `_id` filter names a live
document; used when characterizing the documents a filter matches on a
reachable state. -/
def okDeleteB (n : String) (t : Value) (cond : Value) : Bool :=
  match cond with
  | .vobj [(k, v)] =>
    if k = "_id" then !(beqValue (Value.objGet (docsOf t n) (jsToString v)) .vundef)
    else true
  | _ => true

theorem objGet_mem_or (fs : List (String × Value)) (k : String) :
    Value.objGet fs k = .vundef ∨ (k, Value.objGet fs k) ∈ fs := by
  induction fs with
  | nil => exact Or.inl rfl
  | cons f fs ih =>
    obtain ⟨k', v⟩ := f
    by_cases h : k' = k
    · subst h; simp [Value.objGet]
    · rcases ih with h' | h'
      · exact Or.inl (by simpa [Value.objGet, h] using h')
      · exact Or.inr (by simp only [Value.objGet, if_neg h]; exact List.mem_cons_of_mem _ h')

theorem objGet_of_mem_nodup (fs : List (String × Value)) (k : String) (v : Value)
    (hm : (k, v) ∈ fs) (hn : (fs.map Prod.fst).Nodup) : Value.objGet fs k = v := by
  induction fs with
  | nil => cases hm
  | cons f fs ih =>
    obtain ⟨k', v'⟩ := f
    simp only [List.map_cons, List.nodup_cons] at hn
    rcases List.mem_cons.mp hm with heq | hm'
    · obtain ⟨rfl, rfl⟩ := Prod.mk.injEq .. ▸ heq
      · simp [Value.objGet]
    · have hk : k' ≠ k := by
        rintro rfl
        exact hn.1 (List.mem_map.mpr ⟨(k', v), hm', rfl⟩)
      simp only [Value.objGet, if_neg hk]
      exact ih hm' hn.2

theorem mem_of_objGet_ne (fs : List (String × Value)) (k : String)
    (h : Value.objGet fs k ≠ .vundef) : (k, Value.objGet fs k) ∈ fs := by
  rcases objGet_mem_or fs k with h' | h'
  · exact absurd h' h
  · exact h'

theorem keys_objSet_of_mem (fs : List (String × Value)) (k : String) (v : Value)
    (h : k ∈ fs.map Prod.fst) :
    (Value.objSet fs k v).map Prod.fst = fs.map Prod.fst := by
  induction fs with
  | nil => cases h
  | cons f fs ih =>
    obtain ⟨k', v'⟩ := f
    by_cases hk : k' = k
    · simp [Value.objSet, hk]
    · simp only [List.map_cons, List.mem_cons] at h
      rcases h with h | h
      · exact absurd h.symm hk
      · simp [Value.objSet, hk, ih h]

theorem mem_objSet_of_ne (fs : List (String × Value)) (k k' : String) (v v' : Value)
    (hm : (k', v') ∈ fs) (hne : k' ≠ k) : (k', v') ∈ Value.objSet fs k v := by
  induction fs with
  | nil => cases hm
  | cons f fs ih =>
    obtain ⟨k'', v''⟩ := f
    rcases List.mem_cons.mp hm with heq | hm'
    · by_cases hk : k'' = k
      · subst hk
        obtain ⟨rfl, rfl⟩ := Prod.mk.injEq .. ▸ heq
        exact absurd rfl hne
      · simp only [Value.objSet, if_neg hk]
        exact heq ▸ List.mem_cons_self _ _
    · by_cases hk : k'' = k
      · simp only [Value.objSet, if_pos hk]
        exact List.mem_cons_of_mem _ hm'
      · simp only [Value.objSet, if_neg hk]
        exact List.mem_cons_of_mem _ (ih hm')

/-! ### Transport lemmas: reads and writes on `stateShape` -/

theorem uniqOf_stateShape (n : String) (mu : Value) (idx docs : List (String × Value)) :
    uniqOf (stateShape n mu idx docs) n = mu := by
  simp [uniqOf, stateShape, jsProp, Value.objGet]

theorem idxFieldsOf_stateShape (n : String) (mu : Value)
    (idx docs : List (String × Value)) :
    idxFieldsOf (stateShape n mu idx docs) n = idx := by
  simp [idxFieldsOf, stateShape, jsProp, jsEntries, Value.objGet]

theorem docsOf_stateShape (n : String) (mu : Value) (idx docs : List (String × Value)) :
    docsOf (stateShape n mu idx docs) n = docs := by
  simp [docsOf, stateShape, jsProp, jsEntries, Value.objGet]

theorem metaOf_stateShape (n : String) (mu : Value) (idx docs : List (String × Value)) :
    metaOf (stateShape n mu idx docs) n =
      .vobj [("unique", mu), ("indexes", .vobj idx)] := by
  simp [metaOf, stateShape, dotGetter, dotGetterRaw, Value.objGet, normEmptyObj]

theorem uniqueMeta_stateShape (n : String) (mu : Value)
    (idx docs : List (String × Value)) :
    uniqueMeta (stateShape n mu idx docs) n = mu := by
  simp [uniqueMeta, metaOf_stateShape, jsProp, Value.objGet]

theorem indexesMeta_stateShape (n : String) (mu : Value)
    (idx docs : List (String × Value)) :
    indexesMeta (stateShape n mu idx docs) n = .vobj idx := by
  simp [indexesMeta, metaOf_stateShape, jsProp, Value.objGet]

theorem invB_shape_iff (n : String) (mu : Value) (idx docs : List (String × Value)) :
    invB n (stateShape n mu idx docs) = true ↔
      (idx.map Prod.fst).Nodup ∧ "_id" ∉ idx.map Prod.fst ∧ docsOkB docs = true ∧
        ∀ fb ∈ idx, bucketsOkB docs fb.1 fb.2 = true := by
  simp only [invB, uniqOf_stateShape, idxFieldsOf_stateShape, docsOf_stateShape,
    beqValue_iff, List.all_eq_true, Bool.and_eq_true, decide_eq_true_iff,
    Bool.not_eq_true', decide_eq_false_iff_not]
  tauto

theorem dotSetter_data_stateShape (n : String) (mu : Value)
    (idx docs : List (String × Value)) (k : String) (v : Value) :
    dotSetter (stateShape n mu idx docs) [n, "data", k] v =
      stateShape n mu idx (Value.objSet docs k v) := by
  simp [stateShape, dotSetter, dotSetAux, Value.objGet, Value.objSet]

theorem dotSetAux_unique_factor (n : String) (mu : Value)
    (idx docs : List (String × Value)) (u sv : String) (v : Value) :
    dotSetAux (stateShape n mu idx docs) [n, "__meta", "unique", u, sv] v =
      (dotSetAux mu [u, sv] v).map fun c => stateShape n c idx docs := by
  simp [stateShape, dotSetAux, Value.objGet, Value.objSet, Option.map_map, Function.comp]
  congr 1

theorem dotSetter_unique_stateShape (n : String) (mu : Value)
    (idx docs : List (String × Value)) (u sv : String) (v : Value) :
    dotSetter (stateShape n mu idx docs) [n, "__meta", "unique", u, sv] v =
      stateShape n (dotSetter mu [u, sv] v) idx docs := by
  unfold dotSetter
  rw [dotSetAux_unique_factor]
  cases dotSetAux mu [u, sv] v with
  | none => rfl
  | some mu' => rfl

theorem dotSetter_index_stateShape (n : String) (mu : Value)
    (idx docs bfs : List (String × Value)) (F s : String) (v : Value)
    (h : Value.objGet idx F = .vobj bfs) :
    dotSetter (stateShape n mu idx docs) [n, "__meta", "indexes", F, s] v =
      stateShape n mu (Value.objSet idx F (.vobj (Value.objSet bfs s v))) docs := by
  simp [stateShape, dotSetter, dotSetAux, Value.objGet, Value.objSet, h]

theorem dotGetter_data_stateShape (n : String) (mu : Value)
    (idx docs : List (String × Value)) (k : String) :
    dotGetter (stateShape n mu idx docs) [n, "data", k] =
      normEmptyObj (Value.objGet docs k) := by
  simp [stateShape, dotGetter, dotGetterRaw, Value.objGet, normEmptyObj]

theorem dotGetter_index_stateShape (n : String) (mu : Value)
    (idx docs bfs : List (String × Value)) (F s : String)
    (h : Value.objGet idx F = .vobj bfs) :
    dotGetter (stateShape n mu idx docs) [n, "__meta", "indexes", F, s] =
      normEmptyObj (Value.objGet bfs s) := by
  simp [stateShape, dotGetter, dotGetterRaw, Value.objGet, normEmptyObj, h]

/-! ### Spread, liveIds and bucket lemmas -/

theorem mem_keys_objSet_iff (fs : List (String × Value)) (k x : String) (v : Value) :
    x ∈ (Value.objSet fs k v).map Prod.fst ↔ x ∈ fs.map Prod.fst ∨ x = k := by
  induction fs with
  | nil => simp [Value.objSet]
  | cons f fs ih =>
    obtain ⟨k', v'⟩ := f
    by_cases hk : k' = k
    · subst hk
      simp [Value.objSet]
      tauto
    · simp [Value.objSet, hk, ih]
      tauto

theorem liveIds_cons (k : String) (d : Value) (docs : List (String × Value))
    (F s : String) :
    liveIds ((k, d) :: docs) F s =
      (match d with
       | .vobj fs =>
         if F ∈ fs.map Prod.fst ∧ jsToString (Value.objGet fs F) = s then [Value.vstr k]
         else []
       | _ => []) ++ liveIds docs F s := by
  cases d with
  | vobj fs =>
    simp only [liveIds, List.filterMap_cons]
    by_cases h : F ∈ fs.map Prod.fst ∧ jsToString (Value.objGet fs F) = s
    · rw [if_pos h, if_pos h]
      rfl
    · rw [if_neg h, if_neg h]
      rfl
  | vundef => simp [liveIds, List.filterMap_cons]
  | vnull => simp [liveIds, List.filterMap_cons]
  | vbool b => simp [liveIds, List.filterMap_cons]
  | vnum m => simp [liveIds, List.filterMap_cons]
  | vstr s2 => simp [liveIds, List.filterMap_cons]
  | varr xs => simp [liveIds, List.filterMap_cons]

theorem liveIds_cons_vobj (k : String) (fs docs : List (String × Value)) (F s : String) :
    liveIds ((k, .vobj fs) :: docs) F s =
      (if F ∈ fs.map Prod.fst ∧ jsToString (Value.objGet fs F) = s then [Value.vstr k]
       else []) ++ liveIds docs F s := by
  rw [liveIds_cons]

theorem liveIds_cons_nonobj (k : String) (d : Value) (docs : List (String × Value))
    (F s : String) (h : ∀ fs, d ≠ .vobj fs) :
    liveIds ((k, d) :: docs) F s = liveIds docs F s := by
  cases d with
  | vobj fs => exact absurd rfl (h fs)
  | vundef => simp [liveIds_cons]
  | vnull => simp [liveIds_cons]
  | vbool b => simp [liveIds_cons]
  | vnum m => simp [liveIds_cons]
  | vstr s2 => simp [liveIds_cons]
  | varr xs => simp [liveIds_cons]

theorem mem_liveIds_elim (docs : List (String × Value)) (F s : String) (x : Value)
    (h : x ∈ liveIds docs F s) :
    ∃ k fs, x = .vstr k ∧ (k, Value.vobj fs) ∈ docs ∧ F ∈ fs.map Prod.fst ∧
      jsToString (Value.objGet fs F) = s := by
  obtain ⟨kd, hkd, hx⟩ := List.mem_filterMap.mp h
  obtain ⟨k, d⟩ := kd
  match d, hx with
  | .vobj fs, hx =>
    by_cases hc : F ∈ fs.map Prod.fst ∧ jsToString (Value.objGet fs F) = s
    · simp only [if_pos hc, Option.some_inj] at hx
      exact ⟨k, fs, hx.symm, hkd, hc.1, hc.2⟩
    · simp [if_neg hc] at hx

theorem mem_liveIds_intro (docs : List (String × Value)) (F s k : String)
    (fs : List (String × Value)) (hm : (k, Value.vobj fs) ∈ docs)
    (hf : F ∈ fs.map Prod.fst) (hs : jsToString (Value.objGet fs F) = s) :
    Value.vstr k ∈ liveIds docs F s := by
  refine List.mem_filterMap.mpr ⟨(k, .vobj fs), hm, ?_⟩
  simp [hf, hs]

theorem liveIds_kill (docs : List (String × Value)) (k : String)
    (dfs : List (String × Value)) (F s : String)
    (hn : (docs.map Prod.fst).Nodup) (hm : (k, Value.vobj dfs) ∈ docs) :
    liveIds (Value.objSet docs k .vundef) F s =
      if F ∈ dfs.map Prod.fst ∧ jsToString (Value.objGet dfs F) = s then
        (liveIds docs F s).erase (.vstr k)
      else liveIds docs F s := by
  induction docs with
  | nil => cases hm
  | cons kd docs ih =>
    obtain ⟨k', d'⟩ := kd
    simp only [List.map_cons, List.nodup_cons] at hn
    rcases List.mem_cons.mp hm with heq | htail
    · obtain ⟨rfl, rfl⟩ := Prod.mk.inj heq
      rw [show Value.objSet ((k, Value.vobj dfs) :: docs) k .vundef =
          (k, Value.vundef) :: docs from by simp [Value.objSet]]
      rw [liveIds_cons_nonobj _ _ _ _ _ (fun _ h => Value.noConfusion h), liveIds_cons_vobj]
      by_cases hc : F ∈ dfs.map Prod.fst ∧ jsToString (Value.objGet dfs F) = s
      · rw [if_pos hc, if_pos hc]
        simp only [List.singleton_append]
        rw [List.erase_cons_head]
      · rw [if_neg hc, if_neg hc]
        simp
    · have hk : k' ≠ k := by
        rintro rfl
        exact hn.1 (List.mem_map.mpr ⟨(k', .vobj dfs), htail, rfl⟩)
      rw [show Value.objSet ((k', d') :: docs) k .vundef =
          (k', d') :: Value.objSet docs k .vundef from by simp [Value.objSet, hk]]
      match d' with
      | .vobj fs' =>
        rw [liveIds_cons_vobj, liveIds_cons_vobj, ih hn.2 htail]
        by_cases hc : F ∈ dfs.map Prod.fst ∧ jsToString (Value.objGet dfs F) = s
        · rw [if_pos hc, if_pos hc]
          by_cases hc' : F ∈ fs'.map Prod.fst ∧ jsToString (Value.objGet fs' F) = s
          · rw [if_pos hc']
            simp only [List.singleton_append]
            rw [List.erase_cons_tail]
            simp [hk]
          · rw [if_neg hc']
            simp
        · rw [if_neg hc, if_neg hc]
      | .vundef =>
        rw [liveIds_cons_nonobj _ _ _ _ _ (fun _ h => Value.noConfusion h),
          liveIds_cons_nonobj _ _ _ _ _ (fun _ h => Value.noConfusion h), ih hn.2 htail]
      | .vnull =>
        rw [liveIds_cons_nonobj _ _ _ _ _ (fun _ h => Value.noConfusion h),
          liveIds_cons_nonobj _ _ _ _ _ (fun _ h => Value.noConfusion h), ih hn.2 htail]
      | .vbool b =>
        rw [liveIds_cons_nonobj _ _ _ _ _ (fun _ h => Value.noConfusion h),
          liveIds_cons_nonobj _ _ _ _ _ (fun _ h => Value.noConfusion h), ih hn.2 htail]
      | .vnum m =>
        rw [liveIds_cons_nonobj _ _ _ _ _ (fun _ h => Value.noConfusion h),
          liveIds_cons_nonobj _ _ _ _ _ (fun _ h => Value.noConfusion h), ih hn.2 htail]
      | .vstr s2 =>
        rw [liveIds_cons_nonobj _ _ _ _ _ (fun _ h => Value.noConfusion h),
          liveIds_cons_nonobj _ _ _ _ _ (fun _ h => Value.noConfusion h), ih hn.2 htail]
      | .varr xs =>
        rw [liveIds_cons_nonobj _ _ _ _ _ (fun _ h => Value.noConfusion h),
          liveIds_cons_nonobj _ _ _ _ _ (fun _ h => Value.noConfusion h), ih hn.2 htail]

theorem liveIds_nodup (docs : List (String × Value)) (F s : String)
    (hn : (docs.map Prod.fst).Nodup) : (liveIds docs F s).Nodup := by
  induction docs with
  | nil => simp [liveIds]
  | cons kd docs ih =>
    obtain ⟨k, d⟩ := kd
    simp only [List.map_cons, List.nodup_cons] at hn
    have tail := ih hn.2
    match d with
    | .vobj fs =>
      rw [liveIds_cons_vobj]
      by_cases hc : F ∈ fs.map Prod.fst ∧ jsToString (Value.objGet fs F) = s
      · rw [if_pos hc]
        simp only [List.singleton_append, List.nodup_cons]
        refine ⟨fun hmem => ?_, tail⟩
        obtain ⟨k', fs', hx, hm', _, _⟩ := mem_liveIds_elim docs F s _ hmem
        have : k = k' := by injection hx
        exact hn.1 (List.mem_map.mpr ⟨(k', .vobj fs'), hm', this.symm⟩)
      · rw [if_neg hc]
        simpa using tail
    | .vundef =>
      rw [liveIds_cons_nonobj _ _ _ _ _ (fun _ h => Value.noConfusion h)]
      exact tail
    | .vnull =>
      rw [liveIds_cons_nonobj _ _ _ _ _ (fun _ h => Value.noConfusion h)]
      exact tail
    | .vbool _ =>
      rw [liveIds_cons_nonobj _ _ _ _ _ (fun _ h => Value.noConfusion h)]
      exact tail
    | .vnum _ =>
      rw [liveIds_cons_nonobj _ _ _ _ _ (fun _ h => Value.noConfusion h)]
      exact tail
    | .vstr _ =>
      rw [liveIds_cons_nonobj _ _ _ _ _ (fun _ h => Value.noConfusion h)]
      exact tail
    | .varr _ =>
      rw [liveIds_cons_nonobj _ _ _ _ _ (fun _ h => Value.noConfusion h)]
      exact tail

theorem docsOkB_elim (docs : List (String × Value)) (h : docsOkB docs = true) :
    (docs.map Prod.fst).Nodup ∧
      ∀ kd ∈ docs, kd.2 = .vundef ∨
        ∃ fs, kd.2 = .vobj fs ∧ (fs.map Prod.fst).Nodup ∧
          Value.objGet fs "_id" = .vstr kd.1 := by
  simp only [docsOkB, Bool.and_eq_true, decide_eq_true_iff, List.all_eq_true] at h
  refine ⟨h.1, fun kd hm => ?_⟩
  have := h.2 kd hm
  match kd, this with
  | (k, .vundef), _ => exact Or.inl rfl
  | (k, .vobj fs), hh =>
    simp only [Bool.and_eq_true, decide_eq_true_iff, beqValue_iff] at hh
    exact Or.inr ⟨fs, rfl, hh.1, hh.2⟩

theorem docsOkB_intro (docs : List (String × Value))
    (h1 : (docs.map Prod.fst).Nodup)
    (h2 : ∀ kd ∈ docs, kd.2 = .vundef ∨
      ∃ fs, kd.2 = .vobj fs ∧ (fs.map Prod.fst).Nodup ∧
        Value.objGet fs "_id" = .vstr kd.1) : docsOkB docs = true := by
  simp only [docsOkB, Bool.and_eq_true, decide_eq_true_iff, List.all_eq_true]
  refine ⟨h1, fun kd hm => ?_⟩
  rcases h2 kd hm with hu | ⟨fs, hobj, hnd, hid⟩
  · rw [hu]
  · rw [hobj]
    simp [hnd, beqValue_iff, hid]

theorem bucketsOkB_elim (docs : List (String × Value)) (F : String) (bm : Value)
    (h : bucketsOkB docs F bm = true) :
    ∃ bfs, bm = .vobj bfs ∧ (bfs.map Prod.fst).Nodup ∧
      (∀ sb ∈ bfs, sb.2 = .varr (liveIds docs F sb.1)) ∧
      ∀ s, liveIds docs F s ≠ [] → s ∈ bfs.map Prod.fst := by
  match bm with
  | .vobj bfs =>
    simp only [bucketsOkB, Bool.and_eq_true, decide_eq_true_iff, List.all_eq_true] at h
    refine ⟨bfs, rfl, h.1.1, fun sb hm => ?_, fun s hne => ?_⟩
    · have := h.1.2 sb hm
      simpa [beqValue_iff] using this
    · obtain ⟨x, hx⟩ := List.exists_mem_of_ne_nil _ hne
      obtain ⟨k, fs, rfl, hmem, hf, hs⟩ := mem_liveIds_elim docs F s x hx
      have := h.2 (k, .vobj fs) hmem
      simp only [if_pos hf] at this
      · rw [← hs]
        simpa [hf, decide_eq_true_iff] using this

theorem bucketsOkB_intro (docs : List (String × Value)) (F : String)
    (bfs : List (String × Value)) (h1 : (bfs.map Prod.fst).Nodup)
    (h2 : ∀ sb ∈ bfs, sb.2 = .varr (liveIds docs F sb.1))
    (h3 : ∀ kd ∈ docs, ∀ fs, kd.2 = .vobj fs → F ∈ fs.map Prod.fst →
      jsToString (Value.objGet fs F) ∈ bfs.map Prod.fst) :
    bucketsOkB docs F (.vobj bfs) = true := by
  simp only [bucketsOkB, Bool.and_eq_true, decide_eq_true_iff, List.all_eq_true]
  refine ⟨⟨h1, fun sb hm => by simp [beqValue_iff, h2 sb hm]⟩, fun kd hm => ?_⟩
  match kd with
  | (k, .vobj fs) =>
    by_cases hf : F ∈ fs.map Prod.fst
    · simpa [hf] using h3 (k, .vobj fs) hm fs rfl hf
    · simp [hf]
  | (k, .vundef) => rfl
  | (k, .vnull) => rfl
  | (k, .vbool _) => rfl
  | (k, .vnum _) => rfl
  | (k, .vstr _) => rfl
  | (k, .varr _) => rfl

/-! ### Reading buckets, and shape preservation of the unique-map folds -/

theorem asArr_getIndex_stateShape (n : String) (mu : Value)
    (idxJ d2 docsR bfs : List (String × Value)) (F : String) (w : Value)
    (hbm : Value.objGet idxJ F = .vobj bfs)
    (hb : bucketsOkB docsR F (.vobj bfs) = true) :
    asArr (getIndex (stateShape n mu idxJ d2) n F w) = liveIds docsR F (jsToString w) := by
  obtain ⟨bfs', heq, hnd, h1, h3⟩ := bucketsOkB_elim docsR F _ hb
  obtain rfl : bfs = bfs' := by injection heq
  unfold getIndex dbGetD
  rw [dotGetter_index_stateShape n mu idxJ d2 bfs F (jsToString w) hbm]
  rcases objGet_mem_or bfs (jsToString w) with hg | hg
  · rw [hg]
    by_cases hLive : liveIds docsR F (jsToString w) = []
    · rw [hLive]
      rfl
    · exfalso
      have hkeys := h3 _ hLive
      obtain ⟨⟨s', b⟩, hmem, hfst⟩ := List.mem_map.mp hkeys
      obtain rfl : s' = jsToString w := hfst
      have hval := objGet_of_mem_nodup bfs _ _ hmem hnd
      rw [hval] at hg
      have := h1 _ hmem
      simp only at this
      rw [this] at hg
      cases hg
  · have hv := h1 _ hg
    simp only at hv
    rw [hv]
    rfl

theorem unique_fold_stateShape (n : String) (idx docs : List (String × Value))
    (ks : List String) (g : String → String) (w : Value) :
    ∀ mu : Value, ∃ mu',
      ks.foldl (fun t' u => dotSetter t' [n, "__meta", "unique", u, g u] w)
        (stateShape n mu idx docs) = stateShape n mu' idx docs := by
  induction ks with
  | nil => exact fun mu => ⟨mu, rfl⟩
  | cons u ks ih =>
    intro mu
    simp only [List.foldl_cons]
    rw [dotSetter_unique_stateShape]
    exact ih _

theorem removeDuplicate_stateShape (n : String) (mu : Value)
    (idx docs : List (String × Value)) (entry : Value) :
    ∃ mu', removeDuplicate (stateShape n mu idx docs) n entry =
      stateShape n mu' idx docs := by
  unfold removeDuplicate
  rw [uniqueMeta_stateShape]
  exact unique_fold_stateShape n idx docs (jsKeys mu) _ _ mu

theorem removeDuplicate_fold_stateShape (n : String)
    (idx docs : List (String × Value)) (cs : List Value) :
    ∀ mu : Value, ∃ mu',
      cs.foldl (fun t' c => removeDuplicate t' n c) (stateShape n mu idx docs) =
        stateShape n mu' idx docs := by
  induction cs with
  | nil => exact fun mu => ⟨mu, rfl⟩
  | cons c cs ih =>
    intro mu
    simp only [List.foldl_cons]
    obtain ⟨mu1, h1⟩ := removeDuplicate_stateShape n mu idx docs c
    rw [h1]
    exact ih _

/-! ### Create preserves the index invariant -/

theorem mem_objGet_of_mem_keys (fs : List (String × Value)) (k : String)
    (h : k ∈ fs.map Prod.fst) : (k, Value.objGet fs k) ∈ fs := by
  induction fs with
  | nil => cases h
  | cons f fs ih =>
    obtain ⟨k', v'⟩ := f
    by_cases hk : k' = k
    · subst hk
      simp [Value.objGet]
    · simp only [List.map_cons, List.mem_cons] at h
      rcases h with h | h
      · exact absurd h.symm hk
      · simp only [Value.objGet, if_neg hk]
        exact List.mem_cons_of_mem _ (ih h)

theorem mem_objSet_elim (fs : List (String × Value)) (k : String) (v : Value)
    (kv : String × Value) (hn : (fs.map Prod.fst).Nodup)
    (h : kv ∈ Value.objSet fs k v) : kv = (k, v) ∨ (kv ∈ fs ∧ kv.1 ≠ k) := by
  induction fs with
  | nil => exact Or.inl (List.mem_singleton.mp h)
  | cons f fs ih =>
    obtain ⟨k', v'⟩ := f
    simp only [List.map_cons, List.nodup_cons] at hn
    by_cases hk : k' = k
    · subst hk
      rw [show Value.objSet ((k', v') :: fs) k' v = (k', v) :: fs from by
        simp [Value.objSet]] at h
      rcases List.mem_cons.mp h with h | h
      · exact Or.inl h
      · refine Or.inr ⟨List.mem_cons_of_mem _ h, fun hcon => ?_⟩
        exact hn.1 (List.mem_map.mpr ⟨kv, h, hcon⟩)
    · rw [show Value.objSet ((k', v') :: fs) k v = (k', v') :: Value.objSet fs k v from by
        simp [Value.objSet, hk]] at h
      rcases List.mem_cons.mp h with h | h
      · exact Or.inr ⟨List.mem_cons.mpr (Or.inl h), h ▸ hk⟩
      · rcases ih hn.2 h with h' | h'
        · exact Or.inl h'
        · exact Or.inr ⟨List.mem_cons_of_mem _ h'.1, h'.2⟩

theorem bucketsOkB_doccond (docs : List (String × Value)) (F : String)
    (bfs : List (String × Value)) (h : bucketsOkB docs F (.vobj bfs) = true) :
    ∀ kd ∈ docs, ∀ fs, kd.2 = .vobj fs → F ∈ fs.map Prod.fst →
      jsToString (Value.objGet fs F) ∈ bfs.map Prod.fst := by
  simp only [bucketsOkB, Bool.and_eq_true, List.all_eq_true] at h
  intro kd hm fs hfs hF
  have := h.2 kd hm
  rw [hfs] at this
  simpa [hF] using this

theorem bucketsOkB_kill_of_not_field (docs : List (String × Value)) (key0 : String)
    (fs : List (String × Value)) (F : String) (bm : Value)
    (hn : (docs.map Prod.fst).Nodup) (hm : (key0, Value.vobj fs) ∈ docs)
    (h : bucketsOkB docs F bm = true) (hF : F ∉ fs.map Prod.fst) :
    bucketsOkB (Value.objSet docs key0 .vundef) F bm = true := by
  obtain ⟨bfs, rfl, hnd, h1, h3⟩ := bucketsOkB_elim docs F bm h
  have hsame : ∀ s, liveIds (Value.objSet docs key0 .vundef) F s = liveIds docs F s := by
    intro s
    rw [liveIds_kill docs key0 fs F s hn hm, if_neg]
    rintro ⟨hc, -⟩
    exact hF hc
  refine bucketsOkB_intro _ F bfs hnd (fun sb hm' => by rw [hsame]; exact h1 sb hm') ?_
  intro kd hmk fs2 hfs2 hF2
  rcases mem_objSet_elim docs key0 _ kd hn hmk with heq | ⟨hm', -⟩
  · subst heq
    exact Value.noConfusion hfs2
  · exact bucketsOkB_doccond docs F bfs h kd hm' fs2 hfs2 hF2

theorem removeIndex_stateShape_eq_fold (n : String) (mu : Value)
    (idx d2 fs : List (String × Value)) (idV : Value) :
    removeIndex (stateShape n mu idx d2) n (.vobj fs) idV =
      fs.foldl
        (fun t' kv =>
          if kv.1 ∈ idx.map Prod.fst then
            dotSetter t' [n, "__meta", "indexes", kv.1, jsToString kv.2]
              (.varr (jsSpliceRemove (asArr (getIndex t' n kv.1 kv.2)) idV))
          else t')
        (stateShape n mu idx d2) := by
  show fs.foldl
      (fun t' kv =>
        if kv.1 ∈ jsKeys (indexesMeta (stateShape n mu idx d2) n) then
          dotSetter t' [n, "__meta", "indexes", kv.1, jsToString kv.2]
            (.varr (jsSpliceRemove (asArr (getIndex t' n kv.1 kv.2)) idV))
        else t')
      (stateShape n mu idx d2) = _
  rw [indexesMeta_stateShape]
  rfl

theorem removeIndex_fold_inv (n : String) (mu : Value) (docs fs : List (String × Value))
    (key0 : String) (idxKeys : List String)
    (hdn : (docs.map Prod.fst).Nodup) (hdm : (key0, Value.vobj fs) ∈ docs)
    (hknd : idxKeys.Nodup) (pend : List (String × Value)) :
    ∀ idxJ : List (String × Value),
      (pend.map Prod.fst).Nodup →
      (∀ kv ∈ pend, kv.1 ∈ fs.map Prod.fst ∧ Value.objGet fs kv.1 = kv.2) →
      idxJ.map Prod.fst = idxKeys →
      (∀ fb ∈ idxJ,
        if fb.1 ∈ pend.map Prod.fst then bucketsOkB docs fb.1 fb.2 = true
        else bucketsOkB (Value.objSet docs key0 .vundef) fb.1 fb.2 = true) →
      ∃ idxJ2,
        pend.foldl
          (fun t' kv =>
            if kv.1 ∈ idxKeys then
              dotSetter t' [n, "__meta", "indexes", kv.1, jsToString kv.2]
                (.varr (jsSpliceRemove (asArr (getIndex t' n kv.1 kv.2)) (.vstr key0)))
            else t')
          (stateShape n mu idxJ (Value.objSet docs key0 .vundef)) =
          stateShape n mu idxJ2 (Value.objSet docs key0 .vundef) ∧
        idxJ2.map Prod.fst = idxKeys ∧
        ∀ fb ∈ idxJ2, bucketsOkB (Value.objSet docs key0 .vundef) fb.1 fb.2 = true := by
  induction pend with
  | nil =>
    intro idxJ _ _ hkeys hinv
    exact ⟨idxJ, rfl, hkeys, fun fb hm => by simpa using hinv fb hm⟩
  | cons kv pend' ih =>
    intro idxJ hnd hdf hkeys hinv
    simp only [List.map_cons, List.nodup_cons] at hnd
    simp only [List.foldl_cons]
    have hdf' : ∀ kv' ∈ pend', kv'.1 ∈ fs.map Prod.fst ∧ Value.objGet fs kv'.1 = kv'.2 :=
      fun kv' hm' => hdf kv' (List.mem_cons_of_mem _ hm')
    by_cases hk : kv.1 ∈ idxKeys
    · obtain ⟨hkfs, hw⟩ := hdf kv (List.mem_cons_self _ _)
      have hF0J : kv.1 ∈ idxJ.map Prod.fst := hkeys ▸ hk
      have hpair : (kv.1, Value.objGet idxJ kv.1) ∈ idxJ :=
        mem_objGet_of_mem_keys idxJ kv.1 hF0J
      have hbOld : bucketsOkB docs kv.1 (Value.objGet idxJ kv.1) = true := by
        have := hinv _ hpair
        simpa using this
      obtain ⟨bfs0, hbm0, hnd0, h1old, h3old⟩ := bucketsOkB_elim docs kv.1 _ hbOld
      have hbOld' : bucketsOkB docs kv.1 (.vobj bfs0) = true := hbm0 ▸ hbOld
      have hids : asArr (getIndex (stateShape n mu idxJ (Value.objSet docs key0 .vundef))
          n kv.1 kv.2) = liveIds docs kv.1 (jsToString kv.2) :=
        asArr_getIndex_stateShape n mu idxJ _ docs bfs0 kv.1 kv.2 hbm0 hbOld'
      have hmem : Value.vstr key0 ∈ liveIds docs kv.1 (jsToString kv.2) :=
        mem_liveIds_intro docs kv.1 _ key0 fs hdm hkfs (by rw [hw])
      have hsplice : jsSpliceRemove (liveIds docs kv.1 (jsToString kv.2)) (.vstr key0) =
          (liveIds docs kv.1 (jsToString kv.2)).erase (.vstr key0) := by
        unfold jsSpliceRemove
        rw [if_pos hmem]
      rw [if_pos hk, hids, hsplice,
        dotSetter_index_stateShape n mu idxJ _ bfs0 kv.1 (jsToString kv.2) _ hbm0]
      have hliveK : liveIds (Value.objSet docs key0 .vundef) kv.1 (jsToString kv.2) =
          (liveIds docs kv.1 (jsToString kv.2)).erase (.vstr key0) := by
        rw [liveIds_kill docs key0 fs kv.1 _ hdn hdm, if_pos ⟨hkfs, by rw [hw]⟩]
      have hliveO : ∀ s, s ≠ jsToString kv.2 →
          liveIds (Value.objSet docs key0 .vundef) kv.1 s = liveIds docs kv.1 s := by
        intro s hne
        rw [liveIds_kill docs key0 fs kv.1 s hdn hdm, if_neg]
        rintro ⟨-, hcon⟩
        rw [hw] at hcon
        exact hne hcon.symm
      have hnewOk : bucketsOkB (Value.objSet docs key0 .vundef) kv.1
          (.vobj (Value.objSet bfs0 (jsToString kv.2)
            (.varr ((liveIds docs kv.1 (jsToString kv.2)).erase (.vstr key0))))) = true := by
        refine bucketsOkB_intro _ kv.1 _
          (nodup_keys_objSet bfs0 (jsToString kv.2) _ hnd0) ?_ ?_
        · intro sb hm'
          rcases mem_objSet_elim bfs0 (jsToString kv.2) _ sb hnd0 hm' with heq | ⟨hm'', hne⟩
          · rw [heq]
            simp only
            rw [hliveK]
          · rw [hliveO sb.1 hne, h1old sb hm'']
        · intro kd hmk fs2 hfs2 hF2
          rcases mem_objSet_elim docs key0 _ kd hdn hmk with heq | ⟨hm'', -⟩
          · subst heq
            exact Value.noConfusion hfs2
          · have := bucketsOkB_doccond docs kv.1 bfs0 hbOld' kd hm'' fs2 hfs2 hF2
            exact (mem_keys_objSet_iff bfs0 (jsToString kv.2) _ _).mpr (Or.inl this)
      have hkeys1 : (Value.objSet idxJ kv.1
          (.vobj (Value.objSet bfs0 (jsToString kv.2)
            (.varr ((liveIds docs kv.1 (jsToString kv.2)).erase
              (.vstr key0)))))).map Prod.fst = idxKeys := by
        rw [keys_objSet_of_mem idxJ kv.1 _ hF0J, hkeys]
      have hndJ : (idxJ.map Prod.fst).Nodup := hkeys ▸ hknd
      refine ih _ hnd.2 hdf' hkeys1 ?_
      intro fb hm
      rcases mem_objSet_elim idxJ kv.1 _ fb hndJ hm with heq | ⟨hm', hne⟩
      · rw [heq]
        simp only
        rw [if_neg hnd.1]
        exact hnewOk
      · have := hinv fb hm'
        by_cases hc : fb.1 ∈ pend'.map Prod.fst
        · rw [if_pos hc]
          rw [if_pos (by simp [hc] : fb.1 ∈ (kv :: pend').map Prod.fst)] at this
          exact this
        · rw [if_neg hc]
          rw [if_neg (by simp [hne, hc] : fb.1 ∉ (kv :: pend').map Prod.fst)] at this
          exact this
    · rw [if_neg hk]
      refine ih idxJ hnd.2 hdf' hkeys ?_
      intro fb hm
      have hne : fb.1 ≠ kv.1 := by
        rintro hcon
        exact hk (hcon ▸ (hkeys ▸ List.mem_map.mpr ⟨fb, hm, rfl⟩))
      have := hinv fb hm
      by_cases hc : fb.1 ∈ pend'.map Prod.fst
      · rw [if_pos hc]
        rw [if_pos (by simp [hc] : fb.1 ∈ (kv :: pend').map Prod.fst)] at this
        exact this
      · rw [if_neg hc]
        rw [if_neg (by simp [hne, hc] : fb.1 ∉ (kv :: pend').map Prod.fst)] at this
        exact this

theorem invB_kill_step (n : String) (mu : Value) (idx docs : List (String × Value))
    (key0 : String) (fs : List (String × Value))
    (hinv : invB n (stateShape n mu idx docs) = true)
    (hdm : (key0, Value.vobj fs) ∈ docs) :
    ∃ idx2,
      removeIndex (dotSetter (stateShape n mu idx docs) [n, "data", key0] .vundef) n
          (.vobj fs) (.vstr key0) =
        stateShape n mu idx2 (Value.objSet docs key0 .vundef) ∧
      invB n (stateShape n mu idx2 (Value.objSet docs key0 .vundef)) = true ∧
      idx2.map Prod.fst = idx.map Prod.fst := by
  obtain ⟨hknd, hid, hdok, hbuck⟩ := (invB_shape_iff n mu idx docs).mp hinv
  have hdn : (docs.map Prod.fst).Nodup := (docsOkB_elim docs hdok).1
  have hfs : (fs.map Prod.fst).Nodup ∧ Value.objGet fs "_id" = .vstr key0 := by
    rcases (docsOkB_elim docs hdok).2 (key0, .vobj fs) hdm with hu | ⟨fs2, heq, hnd2, hid2⟩
    · exact absurd hu (by simp)
    · obtain rfl : fs = fs2 := by injection heq
      exact ⟨hnd2, hid2⟩
  have hdf : ∀ kv ∈ fs, kv.1 ∈ fs.map Prod.fst ∧ Value.objGet fs kv.1 = kv.2 :=
    fun kv hm => ⟨List.mem_map.mpr ⟨kv, hm, rfl⟩,
      objGet_of_mem_nodup fs kv.1 kv.2 hm hfs.1⟩
  have hinv0 : ∀ fb ∈ idx,
      if fb.1 ∈ fs.map Prod.fst then bucketsOkB docs fb.1 fb.2 = true
      else bucketsOkB (Value.objSet docs key0 .vundef) fb.1 fb.2 = true := by
    intro fb hm
    by_cases hc : fb.1 ∈ fs.map Prod.fst
    · rw [if_pos hc]
      exact hbuck fb hm
    · rw [if_neg hc]
      exact bucketsOkB_kill_of_not_field docs key0 fs fb.1 fb.2 hdn hdm (hbuck fb hm) hc
  obtain ⟨idx2, hfold, hkeys2, hok2⟩ :=
    removeIndex_fold_inv n mu docs fs key0 (idx.map Prod.fst) hdn hdm hknd fs idx
      hfs.1 hdf rfl hinv0
  refine ⟨idx2, ?_, ?_, hkeys2⟩
  · rw [dotSetter_data_stateShape, removeIndex_stateShape_eq_fold]
    exact hfold
  · rw [invB_shape_iff]
    refine ⟨hkeys2 ▸ hknd, hkeys2 ▸ hid, ?_, hok2⟩
    refine docsOkB_intro _ ?_ ?_
    · rw [keys_objSet_of_mem docs key0 _ (List.mem_map.mpr ⟨(key0, .vobj fs), hdm, rfl⟩)]
      exact hdn
    · intro kd hm
      rcases mem_objSet_elim docs key0 _ kd hdn hm with heq | ⟨hm', -⟩
      · subst heq
        exact Or.inl rfl
      · exact (docsOkB_elim docs hdok).2 kd hm'

theorem delete_loop_inv (n : String) (idxKeys0 : List String)
    (pairs : List (String × List (String × Value))) :
    ∀ (mu : Value) (idx docs : List (String × Value)),
      invB n (stateShape n mu idx docs) = true →
      idx.map Prod.fst = idxKeys0 →
      (pairs.map Prod.fst).Nodup →
      (∀ p ∈ pairs, (p.1, Value.vobj p.2) ∈ docs ∧ Value.objGet p.2 "_id" = .vstr p.1) →
      ∃ idx2 docs2,
        (pairs.map fun p => Value.vobj p.2).foldl
          (fun t' c =>
            removeIndex (dotSetter t' [n, "data", jsToString (jsProp c "_id")] .vundef) n c
              (jsProp c "_id"))
          (stateShape n mu idx docs) = stateShape n mu idx2 docs2 ∧
        invB n (stateShape n mu idx2 docs2) = true ∧
        idx2.map Prod.fst = idxKeys0 ∧
        docs2 = pairs.foldl (fun d p => Value.objSet d p.1 .vundef) docs := by
  induction pairs with
  | nil =>
    intro mu idx docs hinv hkeys _ _
    exact ⟨idx, docs, rfl, hinv, hkeys, rfl⟩
  | cons p pairs ih =>
    intro mu idx docs hinv hkeys hnd hps
    simp only [List.map_cons, List.foldl_cons]
    obtain ⟨hpm, hpid⟩ := hps p (List.mem_cons_self _ _)
    have hprop : jsProp (Value.vobj p.2) "_id" = Value.vstr p.1 := hpid
    rw [hprop, show jsToString (Value.vstr p.1) = p.1 from rfl]
    obtain ⟨idx1, hstep, hinv1, hkeys1⟩ := invB_kill_step n mu idx docs p.1 p.2 hinv hpm
    rw [hstep]
    simp only [List.map_cons, List.nodup_cons] at hnd
    have hps' : ∀ q ∈ pairs, (q.1, Value.vobj q.2) ∈ Value.objSet docs p.1 .vundef ∧
        Value.objGet q.2 "_id" = .vstr q.1 := by
      intro q hq
      obtain ⟨hqm, hqid⟩ := hps q (List.mem_cons_of_mem _ hq)
      refine ⟨mem_objSet_of_ne docs p.1 q.1 .vundef (.vobj q.2) hqm ?_, hqid⟩
      intro hcon
      exact hnd.1 (hcon ▸ List.mem_map.mpr ⟨q, hq, rfl⟩)
    exact ih mu idx1 (Value.objSet docs p.1 .vundef) hinv1 (hkeys1.trans hkeys) hnd.2 hps'

/-- The live documents with field `F` stringifying to `s`, as id–fields
pairs in table order. -/
def livePairs : List (String × Value) → String → String →
    List (String × List (String × Value))
  | [], _, _ => []
  | (k, .vobj fs) :: docs, F, s =>
    if F ∈ fs.map Prod.fst ∧ jsToString (Value.objGet fs F) = s then
      (k, fs) :: livePairs docs F s
    else livePairs docs F s
  | (_, .vundef) :: docs, F, s => livePairs docs F s
  | (_, .vnull) :: docs, F, s => livePairs docs F s
  | (_, .vbool _) :: docs, F, s => livePairs docs F s
  | (_, .vnum _) :: docs, F, s => livePairs docs F s
  | (_, .vstr _) :: docs, F, s => livePairs docs F s
  | (_, .varr _) :: docs, F, s => livePairs docs F s

theorem liveIds_eq_map_livePairs (docs : List (String × Value)) (F s : String) :
    liveIds docs F s = (livePairs docs F s).map fun p => Value.vstr p.1 := by
  induction docs with
  | nil => rfl
  | cons kd docs ih =>
    obtain ⟨k, d⟩ := kd
    match d with
    | .vobj fs =>
      rw [liveIds_cons_vobj]
      by_cases hc : F ∈ fs.map Prod.fst ∧ jsToString (Value.objGet fs F) = s
      · rw [if_pos hc,
          show livePairs ((k, Value.vobj fs) :: docs) F s = (k, fs) :: livePairs docs F s
            from by rw [livePairs, if_pos hc]]
        simp [ih]
      · rw [if_neg hc,
          show livePairs ((k, Value.vobj fs) :: docs) F s = livePairs docs F s
            from by rw [livePairs, if_neg hc]]
        simpa using ih
    | .vundef =>
      rw [liveIds_cons_nonobj _ _ _ _ _ (fun _ h => Value.noConfusion h)]
      exact ih
    | .vnull =>
      rw [liveIds_cons_nonobj _ _ _ _ _ (fun _ h => Value.noConfusion h)]
      exact ih
    | .vbool b =>
      rw [liveIds_cons_nonobj _ _ _ _ _ (fun _ h => Value.noConfusion h)]
      exact ih
    | .vnum m =>
      rw [liveIds_cons_nonobj _ _ _ _ _ (fun _ h => Value.noConfusion h)]
      exact ih
    | .vstr s2 =>
      rw [liveIds_cons_nonobj _ _ _ _ _ (fun _ h => Value.noConfusion h)]
      exact ih
    | .varr xs =>
      rw [liveIds_cons_nonobj _ _ _ _ _ (fun _ h => Value.noConfusion h)]
      exact ih

theorem mem_livePairs_elim (docs : List (String × Value)) (F s : String)
    (p : String × List (String × Value)) (h : p ∈ livePairs docs F s) :
    (p.1, Value.vobj p.2) ∈ docs ∧ F ∈ p.2.map Prod.fst ∧
      jsToString (Value.objGet p.2 F) = s := by
  induction docs with
  | nil => cases h
  | cons kd docs ih =>
    obtain ⟨k, d⟩ := kd
    match d with
    | .vobj fs =>
      by_cases hc : F ∈ fs.map Prod.fst ∧ jsToString (Value.objGet fs F) = s
      · rw [show livePairs ((k, Value.vobj fs) :: docs) F s = (k, fs) :: livePairs docs F s
            from by rw [livePairs, if_pos hc]] at h
        rcases List.mem_cons.mp h with heq | h'
        · subst heq
          exact ⟨List.mem_cons_self _ _, hc.1, hc.2⟩
        · obtain ⟨h1, h2, h3⟩ := ih h'
          exact ⟨List.mem_cons_of_mem _ h1, h2, h3⟩
      · rw [show livePairs ((k, Value.vobj fs) :: docs) F s = livePairs docs F s
            from by rw [livePairs, if_neg hc]] at h
        obtain ⟨h1, h2, h3⟩ := ih h
        exact ⟨List.mem_cons_of_mem _ h1, h2, h3⟩
    | .vundef =>
      obtain ⟨h1, h2, h3⟩ := ih h
      exact ⟨List.mem_cons_of_mem _ h1, h2, h3⟩
    | .vnull =>
      obtain ⟨h1, h2, h3⟩ := ih h
      exact ⟨List.mem_cons_of_mem _ h1, h2, h3⟩
    | .vbool b =>
      obtain ⟨h1, h2, h3⟩ := ih h
      exact ⟨List.mem_cons_of_mem _ h1, h2, h3⟩
    | .vnum m =>
      obtain ⟨h1, h2, h3⟩ := ih h
      exact ⟨List.mem_cons_of_mem _ h1, h2, h3⟩
    | .vstr s2 =>
      obtain ⟨h1, h2, h3⟩ := ih h
      exact ⟨List.mem_cons_of_mem _ h1, h2, h3⟩
    | .varr xs =>
      obtain ⟨h1, h2, h3⟩ := ih h
      exact ⟨List.mem_cons_of_mem _ h1, h2, h3⟩

theorem mem_livePairs_intro (docs : List (String × Value)) (F s k : String)
    (fs : List (String × Value)) (hm : (k, Value.vobj fs) ∈ docs)
    (hf : F ∈ fs.map Prod.fst) (hs : jsToString (Value.objGet fs F) = s) :
    (k, fs) ∈ livePairs docs F s := by
  induction docs with
  | nil => cases hm
  | cons kd docs ih =>
    obtain ⟨k', d⟩ := kd
    rcases List.mem_cons.mp hm with heq | hm'
    · obtain ⟨rfl, rfl⟩ := Prod.mk.inj heq
      rw [show livePairs ((k, Value.vobj fs) :: docs) F s = (k, fs) :: livePairs docs F s
          from by rw [livePairs, if_pos ⟨hf, hs⟩]]
      exact List.mem_cons_self _ _
    · have htail := ih hm'
      match d with
      | .vobj fs' =>
        by_cases hc : F ∈ fs'.map Prod.fst ∧ jsToString (Value.objGet fs' F) = s
        · rw [show livePairs ((k', Value.vobj fs') :: docs) F s =
              (k', fs') :: livePairs docs F s from by rw [livePairs, if_pos hc]]
          exact List.mem_cons_of_mem _ htail
        · rw [show livePairs ((k', Value.vobj fs') :: docs) F s = livePairs docs F s
              from by rw [livePairs, if_neg hc]]
          exact htail
      | .vundef => exact htail
      | .vnull => exact htail
      | .vbool b => exact htail
      | .vnum m => exact htail
      | .vstr s2 => exact htail
      | .varr xs => exact htail

theorem livePairs_keys_nodup (docs : List (String × Value)) (F s : String)
    (hn : (docs.map Prod.fst).Nodup) : ((livePairs docs F s).map Prod.fst).Nodup := by
  have h1 := liveIds_nodup docs F s hn
  rw [liveIds_eq_map_livePairs,
    show ((livePairs docs F s).map fun p => Value.vstr p.1) =
      ((livePairs docs F s).map Prod.fst).map Value.vstr from (List.map_map ..).symm] at h1
  exact h1.of_map

/-! ### Characterizing `find` on reachable states -/

theorem find_fst_unfold (t : Value) (n : String) (cond : Value) :
    (find t n cond).1 =
      match
        (if isObjectNotNull cond = true ∧ (jsKeys cond).length = 1 then
          if (jsKeys cond).headD "" ∈ jsKeys (indexesMeta t n) then
            some (getByIdx t n ((jsKeys cond).headD "")
              (jsProp cond ((jsKeys cond).headD "")))
          else
            if (jsKeys cond).headD "" = "_id" then
              some (getById t n (jsProp cond ((jsKeys cond).headD "")))
            else some []
        else some []) with
      | some d => d
      | none => lodashFilter (jsValues (dbGetD t [n, "data"] (.vobj []))) cond := rfl

theorem find_not_single (t : Value) (n : String) (cond : Value)
    (h : ¬(isObjectNotNull cond = true ∧ (jsKeys cond).length = 1)) :
    (find t n cond).1 = [] := by
  rw [find_fst_unfold, if_neg h]

theorem find_stateShape_indexed (n : String) (mu : Value)
    (idx docs : List (String × Value)) (k : String) (v : Value)
    (hinv : invB n (stateShape n mu idx docs) = true) (hk : k ∈ idx.map Prod.fst) :
    (find (stateShape n mu idx docs) n (.vobj [(k, v)])).1 =
      (livePairs docs k (jsToString v)).map fun p => Value.vobj p.2 := by
  obtain ⟨hknd, hid, hdok, hbuck⟩ := (invB_shape_iff n mu idx docs).mp hinv
  have hdn : (docs.map Prod.fst).Nodup := (docsOkB_elim docs hdok).1
  have hbOld : bucketsOkB docs k (Value.objGet idx k) = true :=
    hbuck _ (mem_objGet_of_mem_keys idx k hk)
  obtain ⟨bfs, hbm, -, -, -⟩ := bucketsOkB_elim docs k _ hbOld
  have hbOld' : bucketsOkB docs k (.vobj bfs) = true := hbm ▸ hbOld
  have hk' : (jsKeys (Value.vobj [(k, v)])).headD "" ∈
      jsKeys (indexesMeta (stateShape n mu idx docs) n) := by
    rw [indexesMeta_stateShape]
    exact hk
  rw [find_fst_unfold, if_pos ⟨rfl, rfl⟩, if_pos hk']
  show getByIdx (stateShape n mu idx docs) n k (jsProp (.vobj [(k, v)]) k) = _
  have hjp : jsProp (Value.vobj [(k, v)]) k = v := by simp [jsProp, Value.objGet]
  rw [hjp]
  unfold getByIdx
  rw [asArr_getIndex_stateShape n mu idx docs docs bfs k v hbm hbOld',
    liveIds_eq_map_livePairs, List.map_map]
  refine List.map_congr_left ?_
  intro p hp
  obtain ⟨hpm, hpf, hps⟩ := mem_livePairs_elim docs k _ p hp
  have hpdoc : Value.objGet p.2 "_id" = .vstr p.1 := by
    rcases (docsOkB_elim docs hdok).2 (p.1, .vobj p.2) hpm with hu | ⟨fs2, heq, -, hid2⟩
    · exact absurd hu (by simp)
    · obtain rfl : p.2 = fs2 := by injection heq
      exact hid2
  show dotGetter (stateShape n mu idx docs) [n, "data", jsToString (Value.vstr p.1)] =
    Value.vobj p.2
  rw [dotGetter_data_stateShape,
    show jsToString (Value.vstr p.1) = p.1 from rfl,
    objGet_of_mem_nodup docs p.1 _ hpm hdn]
  refine normEmptyObj_of_ne _ ?_
  intro hcon
  have h22 : p.2 = ([] : List (String × Value)) := by injection hcon
  rw [h22] at hpdoc
  exact Value.noConfusion hpdoc

theorem find_stateShape_id (n : String) (mu : Value)
    (idx docs : List (String × Value)) (v : Value)
    (hinv : invB n (stateShape n mu idx docs) = true) :
    (find (stateShape n mu idx docs) n (.vobj [("_id", v)])).1 =
      [normEmptyObj (Value.objGet docs (jsToString v))] := by
  obtain ⟨-, hid, -, -⟩ := (invB_shape_iff n mu idx docs).mp hinv
  have hk' : ¬((jsKeys (Value.vobj [("_id", v)])).headD "" ∈
      jsKeys (indexesMeta (stateShape n mu idx docs) n)) := by
    rw [indexesMeta_stateShape]
    exact hid
  rw [find_fst_unfold, if_pos ⟨rfl, rfl⟩, if_neg hk',
    if_pos (show (jsKeys (Value.vobj [("_id", v)])).headD "" = "_id" from rfl)]
  show getById (stateShape n mu idx docs) n (jsProp (.vobj [("_id", v)]) "_id") = _
  have hjp : jsProp (Value.vobj [("_id", v)]) "_id" = v := by simp [jsProp, Value.objGet]
  rw [hjp]
  show [dotGetter (stateShape n mu idx docs) [n, "data", jsToString v]] = _
  rw [dotGetter_data_stateShape]

theorem find_stateShape_other (t : Value) (n k : String) (v : Value)
    (hk1 : ¬((jsKeys (Value.vobj [(k, v)])).headD "" ∈ jsKeys (indexesMeta t n)))
    (hk2 : k ≠ "_id") :
    (find t n (.vobj [(k, v)])).1 = [] := by
  rw [find_fst_unfold, if_pos ⟨rfl, rfl⟩, if_neg hk1,
    if_neg (show ¬((jsKeys (Value.vobj [(k, v)])).headD "" = "_id") from hk2)]

theorem delete_targets (n : String) (mu : Value) (idx docs : List (String × Value))
    (cond : Value) (hinv : invB n (stateShape n mu idx docs) = true)
    (hok : okDeleteB n (stateShape n mu idx docs) cond = true) :
    ∃ pairs : List (String × List (String × Value)),
      (find (stateShape n mu idx docs) n cond).1 = pairs.map (fun p => Value.vobj p.2) ∧
      (pairs.map Prod.fst).Nodup ∧
      ∀ p ∈ pairs, (p.1, Value.vobj p.2) ∈ docs ∧ Value.objGet p.2 "_id" = .vstr p.1 := by
  obtain ⟨hknd, hid, hdok, hbuck⟩ := (invB_shape_iff n mu idx docs).mp hinv
  have hdn : (docs.map Prod.fst).Nodup := (docsOkB_elim docs hdok).1
  by_cases hshape : isObjectNotNull cond = true ∧ (jsKeys cond).length = 1
  case neg =>
    exact ⟨[], find_not_single _ n cond hshape, by simp, by simp⟩
  case pos =>
    rcases cond with _ | _ | b | m | s0 | xs | cs
    · exact Bool.noConfusion hshape.1
    · exact Bool.noConfusion hshape.1
    · exact Bool.noConfusion hshape.1
    · exact Bool.noConfusion hshape.1
    · exact Bool.noConfusion hshape.1
    · exact Bool.noConfusion hshape.1
    rcases cs with _ | ⟨⟨k, v⟩, cs'⟩
    · exact absurd hshape.2 (by decide)
    rcases cs' with _ | ⟨kv2, cs''⟩
    case vobj.cons.mk.cons => exact absurd hshape.2 (by simp [jsKeys])
    by_cases hk : k ∈ idx.map Prod.fst
    · refine ⟨livePairs docs k (jsToString v),
        find_stateShape_indexed n mu idx docs k v hinv hk,
        livePairs_keys_nodup docs k _ hdn, ?_⟩
      intro p hp
      obtain ⟨hpm, -, -⟩ := mem_livePairs_elim docs k _ p hp
      refine ⟨hpm, ?_⟩
      rcases (docsOkB_elim docs hdok).2 (p.1, .vobj p.2) hpm with hu | ⟨fs2, heq, -, hid2⟩
      · exact absurd hu (by simp)
      · have hpe : p.2 = fs2 := by injection heq
        rw [hpe]
        exact hid2
    · by_cases hkid : k = "_id"
      · subst hkid
        have hne : Value.objGet docs (jsToString v) ≠ .vundef := by
          have h := hok
          simp only [okDeleteB, docsOf_stateShape] at h
          rw [if_pos trivial] at h
          intro hcon
          rw [hcon] at h
          simp [beqValue] at h
        have hmem := mem_of_objGet_ne docs (jsToString v) hne
        rcases (docsOkB_elim docs hdok).2 _ hmem with hu | ⟨fs2, heq, hnd2, hid2⟩
        · exact absurd hu hne
        · have heq' : Value.objGet docs (jsToString v) = .vobj fs2 := heq
          have hid2' : Value.objGet fs2 "_id" = .vstr (jsToString v) := hid2
          have hfs2ne : Value.vobj fs2 ≠ Value.vobj [] := by
            intro hcon
            have h22 : fs2 = [] := by injection hcon
            rw [h22] at hid2'
            exact Value.noConfusion hid2'
          refine ⟨[(jsToString v, fs2)], ?_, by simp, ?_⟩
          · rw [find_stateShape_id n mu idx docs v hinv, heq',
              normEmptyObj_of_ne _ hfs2ne]
            rfl
          · intro p hp
            rw [List.mem_singleton] at hp
            subst hp
            rw [heq'] at hmem
            exact ⟨hmem, hid2'⟩
      · refine ⟨[], ?_, by simp, by simp⟩
        refine find_stateShape_other _ n k v ?_ hkid
        rw [indexesMeta_stateShape]
        exact hk

theorem mem_killAll_elim (ps : List (String × List (String × Value))) :
    ∀ (docs : List (String × Value)) (kd : String × Value),
      (docs.map Prod.fst).Nodup →
      kd ∈ ps.foldl (fun d p => Value.objSet d p.1 .vundef) docs →
      (kd ∈ docs ∧ kd.1 ∉ ps.map Prod.fst) ∨ kd.2 = .vundef := by
  induction ps with
  | nil =>
    intro docs kd _ h
    exact Or.inl ⟨h, by simp⟩
  | cons p ps ih =>
    intro docs kd hn h
    simp only [List.foldl_cons] at h
    rcases ih _ kd (nodup_keys_objSet docs p.1 _ hn) h with ⟨hm, hnot⟩ | hu
    · rcases mem_objSet_elim docs p.1 _ kd hn hm with heq | ⟨hm', hne⟩
      · right
        rw [heq]
      · left
        refine ⟨hm', ?_⟩
        simp only [List.map_cons, List.mem_cons]
        push_neg
        exact ⟨hne, hnot⟩
    · exact Or.inr hu

/-! ### The freshly-built collection satisfies the invariant -/

/-- C6: `delete` never removes a matched document at all.  The filter
`{_id: "d1"}` matches the lone live document, so the real code throws a
strict-mode `TypeError` at the unbound `this.removeDuplicate` callback
(collection.ts line 155) before tombstoning the slot or splicing any index
bucket — modelled as `none`, the tree untouched.  The claimed post-delete
behavior (`find` on the filter empty, `getByIndex` of the id yielding the
absent-marker) is therefore unreachable: the document stays live and the
same filter still returns it. -/
theorem delete_throws_before_removal :
    deleteOp ((create (buildCollection (.vobj []) "c" [] []) "c"
        (.vobj [("_id", .vstr "d1"), ("a", .vnum 1)]) "u1").2.1) "c"
        (.vobj [("_id", .vstr "d1")]) = none ∧
    (find ((create (buildCollection (.vobj []) "c" [] []) "c"
        (.vobj [("_id", .vstr "d1"), ("a", .vnum 1)]) "u1").2.1) "c"
        (.vobj [("_id", .vstr "d1")])).1 =
      [.vobj [("_id", .vstr "d1"), ("a", .vnum 1)]] := by
  decide


end BsonLite
